import Mathlib

/-!
# Verification of the Qwen LLM adapters (graphrag fragment)

Shallow embedding of `src/graphrag/llm/openai/qwen_completion_llm.py` and
`src/graphrag/llm/openai/qwen_embeddings_llm.py`.

Text is modelled as `List Char` (Python `str`).  The remote `dashscope` API is
modelled as oracle functions supplied as parameters; a response is a structure
carrying `status_code`, an `output` record, and the error fields `code` and
`message` (Python attribute / dict access that can fail is modelled with
`Option`).  Raising an exception is modelled with `Except`.

Several text-scanning functions are defined with an explicit fuel argument
(always called with fuel `≥` the input length, which each recursive call
preserves) so that they are structurally recursive and compute by `rfl` /
`decide`; a fuel-stability lemma shows the fuel choice is irrelevant.
-/

/-- Python `str` as a list of characters. -/
abbrev Str := List Char

/-- `true` when the string contains neither `{` nor `}`. -/
def braceFree (s : Str) : Bool :=
  s.all fun c => c ≠ '{' && c ≠ '}'

/-- Fuel-indexed body of Python `str.replace` for the nonempty pattern
`p :: ps`: one left-to-right pass, replacing non-overlapping occurrences and
scanning on after each replacement.  Called with fuel `≥` input length; the
fuel-exhausted branch is unreachable then. -/
def replaceAllF (p : Char) (ps rep : Str) : Nat → Str → Str
  | _, [] => []
  | 0, s => s
  | f + 1, c :: cs =>
    if (p :: ps).isPrefixOf (c :: cs) then
      rep ++ replaceAllF p ps rep f (cs.drop ps.length)
    else
      c :: replaceAllF p ps rep f cs

/-- Python `str.replace` for a nonempty pattern `p :: ps`. -/
def replaceAll (p : Char) (ps rep s : Str) : Str :=
  replaceAllF p ps rep s.length s

/-- Python `str.replace pat rep`.  For the empty pattern Python inserts `rep`
before every character and at the end; the adapters only ever call this with
the nonempty pattern `"{" + key + "}"`. -/
def strReplace (pat rep s : Str) : Str :=
  match pat with
  | [] => rep ++ s.flatMap fun c => c :: rep
  | p :: ps => replaceAll p ps rep s

/-- `replace_placeholders` from `qwen_completion_llm.py`: for each
`(key, value)` of the mapping (in insertion order — Python dicts iterate in
insertion order) do `input_str = input_str.replace("{" + key + "}", value)`. -/
def replace_placeholders (input_str : Str) (vars : List (Str × Str)) : Str :=
  vars.foldl (fun acc kv => strReplace ('{' :: kv.1 ++ ['}']) kv.2 acc) input_str

/-! ## Templates

A structured way to speak about inputs whose braces all delimit placeholders:
a template is a list of brace-free literal text pieces and named holes; a hole
named `k` renders as the placeholder `{k}`. -/

/-- One piece of a template: literal text, or a placeholder (hole) named `k`. -/
inductive TItem where
  | text (s : Str)
  | hole (k : Str)
deriving DecidableEq

/-- Render one template item to text; a hole `k` renders as `{k}`. -/
def TItem.render : TItem → Str
  | .text s => s
  | .hole k => '{' :: k ++ ['}']

/-- Render a whole template. -/
def renderT (ts : List TItem) : Str :=
  (ts.map TItem.render).flatten

/-- Well-formed template: all text pieces and all hole names are brace-free. -/
def wfItems (ts : List TItem) : Bool :=
  ts.all fun t =>
    match t with
    | .text s => braceFree s
    | .hole k => braceFree k

/-- Substituting value `v` for key `k` at the template level: holes named `k`
become literal text `v`, everything else is untouched. -/
def substItem (k v : Str) : TItem → TItem
  | .text s => .text s
  | .hole k2 => if k2 = k then .text v else .hole k2

/-- Template-level effect of `replace_placeholders`: one substitution pass per
mapping entry, in order. -/
def substAll (vars : List (Str × Str)) (ts : List TItem) : List TItem :=
  vars.foldl (fun acc kv => acc.map (substItem kv.1 kv.2)) ts

/-- `true` when the template contains a hole named `k`. -/
def hasHole (k : Str) (ts : List TItem) : Bool :=
  ts.any fun t =>
    match t with
    | .text _ => false
    | .hole k2 => k2 = k

/-! ## The balanced-brace scan

`extract_json_strings` uses the recursive regex `(\{(?:[^\x7b\x7d]|(?R))*\})`
(written in the source with literal braces) with `findall`.  A match of that
pattern starting at a `{` is exactly the shortest balanced-brace span from
that `{`: the scan walks forward tracking brace depth and ends at the first
position where the depth returns to zero; if the depth never returns to zero
there is no match at that `{` and the regex engine moves one character on.
`findall` collects the leftmost non-overlapping matches, resuming after each
match. -/

/-- Depth-tracking scan after an opening `{` at depth `d ≥ 1`: returns the
number of characters up to and including the brace that closes the span, or
`none` when the depth never returns to zero. -/
def matchLen : Str → Nat → Option Nat
  | [], _ => none
  | c :: cs, d =>
    if c = '}' then
      if d = 1 then some 1 else (matchLen cs (d - 1)).map (· + 1)
    else if c = '{' then
      (matchLen cs (d + 1)).map (· + 1)
    else
      (matchLen cs d).map (· + 1)

/-- Fuel-indexed body of `findall` for the balanced-brace pattern: leftmost
non-overlapping balanced spans, scanning on after each match, skipping a `{`
that opens no balanced span.  Called with fuel `≥` input length. -/
def regexFindallF : Nat → Str → List Str
  | _, [] => []
  | 0, _ => []
  | f + 1, c :: cs =>
    if c = '{' then
      match matchLen cs 1 with
      | some n => ('{' :: cs.take n) :: regexFindallF f (cs.drop n)
      | none => regexFindallF f cs
    else
      regexFindallF f cs

/-- `json_pattern.findall input_string` from `extract_json_strings`. -/
def regexFindall (s : Str) : List Str :=
  regexFindallF s.length s

/-! ## JSON values, `json.loads` and `json.dumps`

A model of the Python `json` standard library as used by the adapter.  JSON
values cover `null`, booleans, integers, strings, arrays and objects; objects
are kept as ordered member lists.  Number literals parse as integers (the
adapter's claims never hinge on float values), string escapes cover the
common single-character escapes (not `\uXXXX`), and `json.dumps` is rendered
with Python's default separators `", "` and `": "`. -/

/-- A JSON value. -/
inductive Json where
  | null
  | bool (b : Bool)
  | num (n : Int)
  | str (s : Str)
  | arr (elems : List Json)
  | obj (members : List (Str × Json))

/-- JSON whitespace (Python `json`: space, tab, newline, carriage return). -/
def isWsC (c : Char) : Bool :=
  c = ' ' || c = '\t' || c = '\n' || c = '\r'

/-- Skip leading JSON whitespace. -/
def skipWs : Str → Str
  | [] => []
  | c :: cs => if isWsC c then skipWs cs else c :: cs

/-- ASCII decimal digit test. -/
def isDigitC (c : Char) : Bool :=
  c = '0' || c = '1' || c = '2' || c = '3' || c = '4' ||
  c = '5' || c = '6' || c = '7' || c = '8' || c = '9'

/-- Numeric value of a decimal digit character (0 for non-digits). -/
def digitVal (c : Char) : Nat :=
  if c = '1' then 1 else if c = '2' then 2 else if c = '3' then 3 else
  if c = '4' then 4 else if c = '5' then 5 else if c = '6' then 6 else
  if c = '7' then 7 else if c = '8' then 8 else if c = '9' then 9 else 0

/-- Decimal digit character of `n % 10`-style small numbers (`'0'` default). -/
def digitChar (n : Nat) : Char :=
  if n = 1 then '1' else if n = 2 then '2' else if n = 3 then '3' else
  if n = 4 then '4' else if n = 5 then '5' else if n = 6 then '6' else
  if n = 7 then '7' else if n = 8 then '8' else if n = 9 then '9' else '0'

/-- Split off the longest leading run of decimal digits. -/
def takeDigits : Str → Str × Str
  | [] => ([], [])
  | c :: cs =>
    if isDigitC c then
      let p := takeDigits cs
      (c :: p.1, p.2)
    else
      ([], c :: cs)

/-- Accumulator-style decimal evaluation of a digit string. -/
def digitsToNatAux (acc : Nat) : Str → Nat
  | [] => acc
  | c :: cs => digitsToNatAux (acc * 10 + digitVal c) cs

/-- Decimal value of a digit string. -/
def digitsToNat (s : Str) : Nat :=
  digitsToNatAux 0 s

/-- Parse a JSON unsigned integer literal: a nonempty digit run with no
leading zero (except the literal `0` itself). -/
def parseNatNum (s : Str) : Option (Nat × Str) :=
  match takeDigits s with
  | ([], _) => none
  | (d :: ds, r) =>
    if d = '0' && ds ≠ [] then none else some (digitsToNat (d :: ds), r)

/-- Parse a JSON integer literal with optional leading minus sign. -/
def parseNumber (s : Str) : Option (Int × Str) :=
  match s with
  | [] => none
  | c :: rest =>
    if c = '-' then (parseNatNum rest).map fun p => (-(p.1 : Int), p.2)
    else (parseNatNum (c :: rest)).map fun p => ((p.1 : Int), p.2)

/-- Unescape the character after a backslash in a JSON string literal
(`\uXXXX` is outside the model). -/
def unescape (c : Char) : Option Char :=
  if c = '"' then some '"'
  else if c = '\\' then some '\\'
  else if c = '/' then some '/'
  else if c = 'n' then some '\n'
  else if c = 't' then some '\t'
  else if c = 'r' then some '\r'
  else if c = 'b' then some (Char.ofNat 8)
  else if c = 'f' then some (Char.ofNat 12)
  else none

/-- Parse the body of a JSON string literal, after the opening quote, up to
and including the closing quote. -/
def parseStringBody : Str → Option (Str × Str)
  | [] => none
  | c :: cs =>
    if c = '"' then some ([], cs)
    else if c = '\\' then
      match cs with
      | [] => none
      | e :: cs2 =>
        match unescape e, parseStringBody cs2 with
        | some u, some p => some (u :: p.1, p.2)
        | _, _ => none
    else
      match parseStringBody cs with
      | some p => some (c :: p.1, p.2)
      | none => none

mutual

/-- Fuel-indexed JSON value parse (model of the Python `json` scanner):
skips leading whitespace, then dispatches on the first character.  Called
with fuel `≥ 2 * length + 2`, which every mutual call preserves. -/
def parseVal : Nat → Str → Option (Json × Str)
  | 0, _ => none
  | f + 1, s =>
    match skipWs s with
    | [] => none
    | c :: cs =>
      if c = '{' then
        match skipWs cs with
        | [] => none
        | c1 :: s1 =>
          if c1 = '}' then some (.obj [], s1)
          else
            match parseMembers f (c1 :: s1) with
            | some p => some (.obj p.1, p.2)
            | none => none
      else if c = '[' then
        match skipWs cs with
        | [] => none
        | c1 :: s1 =>
          if c1 = ']' then some (.arr [], s1)
          else
            match parseElems f (c1 :: s1) with
            | some p => some (.arr p.1, p.2)
            | none => none
      else if c = '"' then
        match parseStringBody cs with
        | some p => some (.str p.1, p.2)
        | none => none
      else if c = 'n' then
        match cs with
        | 'u' :: 'l' :: 'l' :: r => some (.null, r)
        | _ => none
      else if c = 't' then
        match cs with
        | 'r' :: 'u' :: 'e' :: r => some (.bool true, r)
        | _ => none
      else if c = 'f' then
        match cs with
        | 'a' :: 'l' :: 's' :: 'e' :: r => some (.bool false, r)
        | _ => none
      else
        match parseNumber (c :: cs) with
        | some p => some (.num p.1, p.2)
        | none => none

/-- Fuel-indexed parse of a nonempty object member list (input starts at a
key, whitespace already skipped), up to and including the closing `}`. -/
def parseMembers : Nat → Str → Option (List (Str × Json) × Str)
  | 0, _ => none
  | f + 1, s =>
    match s with
    | [] => none
    | c0 :: cs =>
      if c0 = '"' then
        match parseStringBody cs with
        | some kp =>
          match skipWs kp.2 with
          | [] => none
          | c1 :: r2 =>
            if c1 = ':' then
              match parseVal f r2 with
              | some vp =>
                match skipWs vp.2 with
                | [] => none
                | c2 :: r4 =>
                  if c2 = ',' then
                    match parseMembers f (skipWs r4) with
                    | some mp => some ((kp.1, vp.1) :: mp.1, mp.2)
                    | none => none
                  else if c2 = '}' then some ([(kp.1, vp.1)], r4)
                  else none
              | none => none
            else none
        | none => none
      else none

/-- Fuel-indexed parse of a nonempty array element list, up to and including
the closing `]`. -/
def parseElems : Nat → Str → Option (List Json × Str)
  | 0, _ => none
  | f + 1, s =>
    match parseVal f s with
    | some vp =>
      match skipWs vp.2 with
      | [] => none
      | c1 :: r2 =>
        if c1 = ',' then
          match parseElems f r2 with
          | some ep => some (vp.1 :: ep.1, ep.2)
          | none => none
        else if c1 = ']' then some ([vp.1], r2)
        else none
    | none => none

end

/-- Model of `json.loads`: whitespace, one value, trailing whitespace, end of
input. -/
def parseJson (s : Str) : Option Json :=
  match parseVal (2 * s.length + 2) s with
  | some p => if skipWs p.2 = [] then some p.1 else none
  | none => none

/-- Escape one character for a JSON string literal (model of `json.dumps`
string escaping for the escapes the model covers). -/
def escapeChar (c : Char) : Str :=
  if c = '"' then ['\\', '"']
  else if c = '\\' then ['\\', '\\']
  else if c = '\n' then ['\\', 'n']
  else if c = '\t' then ['\\', 't']
  else if c = '\r' then ['\\', 'r']
  else [c]

/-- Escape a whole string for a JSON string literal. -/
def escapeStr (s : Str) : Str :=
  s.flatMap escapeChar

/-- Decimal rendering of a natural number, fuel-indexed (fuel `> n` is far
more than the digit count). -/
def natToDigitsF : Nat → Nat → Str
  | 0, _ => []
  | f + 1, n =>
    if n < 10 then [digitChar n] else natToDigitsF f (n / 10) ++ [digitChar (n % 10)]

/-- Decimal rendering of a natural number. -/
def natToDigits (n : Nat) : Str :=
  natToDigitsF (n + 1) n

/-- Decimal rendering of an integer (Python `repr` of an `int`). -/
def intToStr (i : Int) : Str :=
  if i < 0 then '-' :: natToDigits i.natAbs else natToDigits i.natAbs

mutual

/-- Model of `json.dumps` with Python's default separators `", "` and `": "`
(ASCII-escaping of exotic characters is outside the model). -/
def dumps : Json → Str
  | .null => "null".data
  | .bool true => "true".data
  | .bool false => "false".data
  | .num i => intToStr i
  | .str s => '"' :: escapeStr s ++ ['"']
  | .arr [] => "[]".data
  | .arr (e :: r) => '[' :: dumps e ++ dumpsArr r ++ [']']
  | .obj [] => ('{' :: ['}'])
  | .obj (m :: r) => '{' :: dumpsMember m ++ dumpsObj r ++ ['}']

/-- Render the remaining array elements, each preceded by `", "`. -/
def dumpsArr : List Json → Str
  | [] => []
  | e :: r => ',' :: ' ' :: dumps e ++ dumpsArr r

/-- Render one object member as `"key": value`. -/
def dumpsMember : Str × Json → Str
  | (k, v) => '"' :: escapeStr k ++ ['"'] ++ (':' :: ' ' :: dumps v)

/-- Render the remaining object members, each preceded by `", "`. -/
def dumpsObj : List (Str × Json) → Str
  | [] => []
  | m :: r => ',' :: ' ' :: dumpsMember m ++ dumpsObj r

end

/-- Head-of-string digit test (side condition for number-literal parses). -/
def headIsDigit : Str → Bool
  | [] => false
  | c :: _ => isDigitC c

mutual

/-- Parsing effort of a JSON value: an upper bound on the fuel the mutual
parser consumes on its rendering. -/
def jsize : Json → Nat
  | .null => 1
  | .bool _ => 1
  | .num _ => 1
  | .str _ => 1
  | .arr l => 2 + jsizeArr l
  | .obj m => 2 + jsizeObj m

/-- Parsing effort of an array element list. -/
def jsizeArr : List Json → Nat
  | [] => 0
  | e :: r => 1 + jsize e + jsizeArr r

/-- Parsing effort of an object member list. -/
def jsizeObj : List (Str × Json) → Nat
  | [] => 0
  | m :: r => 1 + jsize m.2 + jsizeObj r

end

/-- `extract_json_strings` from `qwen_completion_llm.py`: find all balanced
brace spans, parse each candidate, keep the parses in order, silently
dropping (with a logged warning) candidates that fail to parse. -/
def extract_json_strings (input_string : Str) : List Json :=
  (regexFindall input_string).filterMap parseJson

/-! ## The completion adapter -/

/-- A chat message: a `role`/`content` pair. -/
structure Message where
  role : Str
  content : Str
deriving DecidableEq

/-- One entry of a chat response's `choices` list. -/
structure Choice where
  message : Message
deriving DecidableEq

/-- The `output` record of a `dashscope.Generation.call` response.  Non-chat
responses carry a `text` field, chat responses carry `choices`; a field the
response does not carry is `none` / `[]`, and reading it is a Python
`KeyError`, modelled as an error string. -/
structure GenOutput where
  text : Option Str := none
  choices : List Choice := []
deriving DecidableEq

/-- A `dashscope.Generation.call` response: `status_code`, the success
payload `output`, and the error fields `code` and `message`. -/
structure GenResponse where
  status_code : Nat
  output : GenOutput := {}
  code : Str := []
  message : Str := []
deriving DecidableEq

/-- `QwenCompletionLLM._execute_llm`.  The two remote call shapes
(`call_with_prompt`, `call_with_messages`) are oracle parameters.  Substitutes
placeholders, in chat mode sends `history` plus one new user message, then
maps the response: on status `HTTPStatus.OK = 200` return the text (chat:
first choice's message content), else raise
`Exception(f"Error (code): (message)")`. -/
def execute_llm (chat_mode : Bool)
    (callPrompt : Str → GenResponse) (callMessages : List Message → GenResponse)
    (input : Str) (vars : List (Str × Str)) (history : List Message) :
    Except Str Str :=
  let formatted := replace_placeholders input vars
  let response :=
    if chat_mode then callMessages (history ++ [⟨"user".data, formatted⟩])
    else callPrompt formatted
  if response.status_code = 200 then
    if chat_mode then
      match response.output.choices with
      | [] => .error ("IndexError".data)
      | c :: _ => .ok c.message.content
    else
      match response.output.text with
      | none => .error ("KeyError: text".data)
      | some t => .ok t
  else
    .error ("Error ".data ++ response.code ++ ": ".data ++ response.message)

/-- The result record of the structured entry point (`LLMOutput`): a nullable
serialized string and a nullable parsed JSON value. -/
structure LLMOutputM where
  output : Option Str
  json : Option Json

/-- Serialization of the `json_data` variable of `_invoke_json`: Python
`json.dumps` maps `None` to the four-character string `null` and any value
that itself came out of `json.loads` serializes without error, so the
`TypeError/ValueError` guard in the source never fires on these inputs. -/
def dumpsOpt : Option Json → Str
  | none => dumps .null
  | some j => dumps j

/-- `QwenCompletionLLM._invoke_json`, given the outcome of the inner
`_execute_llm` call (`.error` when it raised): any error is caught and turned
into `LLMOutput(output=None, json=None)`; on success the first extracted JSON
value (or `None`) becomes `json`, and its `json.dumps` serialization becomes
`output`. -/
def invoke_json (execResult : Except Str Str) : LLMOutputM :=
  match execResult with
  | .error _ => ⟨none, none⟩
  | .ok out =>
    let extracted := extract_json_strings out
    let json_data : Option Json := extracted.head?
    let output_str : Option Str := some (dumpsOpt json_data)
    ⟨output_str, json_data⟩

/-! ## Construction -/

/-- The `graphrag.config.LLMType` enum, restricted to the variants this
fragment mentions. -/
inductive LLMTypeM where
  | StaticResponse
  | QwenChat
  | QwenEmbedding
deriving DecidableEq

/-- A configuration mapping: the recognized keys, each possibly absent.
Python `config.get(key, default)` is `Option.getD`. -/
structure LLMConfig where
  api_key : Option Str := none
  model : Option Str := none
  type : Option LLMTypeM := none

/-- The fields `QwenCompletionLLM.__init__` stores. -/
structure QwenCompletionState where
  api_key : Str
  model : Str
  llm_type : LLMTypeM
  chat_mode : Bool

/-- `QwenCompletionLLM.__init__ (llm_config: dict = None)`.  The source sets
`self.llm_config = llm_config or \x7b\x7d` and reads `api_key` / `model` from
`self.llm_config` — but reads `type` from the raw `llm_config` parameter, so
a `None` argument raises `AttributeError` (modelled as `.error`).  The
default model is the SDK constant `dashscope.Generation.Models.qwen_turbo =
"qwen-turbo"`. -/
def qwenCompletionInit (llm_config : Option LLMConfig) : Except Str QwenCompletionState :=
  let cfg := llm_config.getD {}
  match llm_config with
  | none => .error ("AttributeError: NoneType object has no attribute get".data)
  | some raw =>
    .ok
      { api_key := cfg.api_key.getD []
        model := cfg.model.getD ("qwen-turbo".data)
        llm_type := raw.type.getD .StaticResponse
        chat_mode := decide (raw.type.getD .StaticResponse = .QwenChat) }

/-! ## The embedding adapter -/

/-- One entry of an embedding response's `embeddings` list: a numeric vector
(float values pass through the adapter untouched; they are modelled as
rationals). -/
structure EmbItem where
  embedding : List Rat
deriving DecidableEq

/-- The `output` record of a `dashscope.TextEmbedding.call` response. -/
structure EmbOutput where
  embeddings : List EmbItem := []
deriving DecidableEq

/-- A `dashscope.TextEmbedding.call` response. -/
structure EmbResponse where
  status_code : Nat
  output : EmbOutput := {}
  code : Str := []
  message : Str := []
deriving DecidableEq

/-- `QwenEmbeddingsLLM._execute_llm`: call the remote embedding endpoint
(an oracle parameter) on the input; on status `200` return one vector per
response item, in response order; otherwise raise
`Exception(f"Error (code): (message)")`, which nothing in this adapter
catches. -/
def embed_execute_llm (callEmbedding : List Str → EmbResponse) (input : List Str) :
    Except Str (List (List Rat)) :=
  let response := callEmbedding input
  if response.status_code = 200 then
    .ok (response.output.embeddings.map fun e => e.embedding)
  else
    .error ("Error ".data ++ response.code ++ ": ".data ++ response.message)

/-- The fields `QwenEmbeddingsLLM.__init__` stores. -/
structure QwenEmbeddingsState where
  api_key : Str
  model : Str
deriving DecidableEq

/-- `QwenEmbeddingsLLM.__init__ (llm_config: dict = None)`: reads everything
from `self.llm_config = llm_config or \x7b\x7d`, so it accepts both an empty
and an absent mapping.  The default model is the SDK constant
`dashscope.TextEmbedding.Models.text_embedding_v1 = "text-embedding-v1"`. -/
def qwenEmbeddingsInit (llm_config : Option LLMConfig) : QwenEmbeddingsState :=
  let cfg := llm_config.getD {}
  { api_key := cfg.api_key.getD []
    model := cfg.model.getD ("text-embedding-v1".data) }

/-! ## Theorems -/

/-- C2: the structured-invocation wrapper never raises — it is a total
function, and whenever the inner `execute` call raised (any error value
whatsoever, including the remote-call error), the wrapper returns the result
record with `output = null` and `json = null`. -/
theorem invoke_json_catches_all (e : Str) : invoke_json (.error e) = ⟨none, none⟩ :=
  rfl

/-- C3 counterexample: on a successful `execute` whose text contains no
parsable JSON candidate, the wrapper does NOT return the failure shape
`(output = null, json = null)`: `json.dumps(None)` is the four-character
string `null`, so `output` is that string, not `null`. -/
theorem invoke_json_no_json_counterexample :
    extract_json_strings ("hello".data) = [] ∧
    invoke_json (.ok ("hello".data)) = ⟨some ("null".data), none⟩ ∧
    invoke_json (.ok ("hello".data)) ≠ ⟨none, none⟩ := by
  refine ⟨rfl, rfl, fun h => ?_⟩
  have h0 : invoke_json (.ok ("hello".data)) = ⟨some ("null".data), none⟩ := rfl
  rw [h0] at h
  exact Option.some_ne_none _ (congrArg LLMOutputM.output h)

/-- C3 amended: when `execute` succeeds but no candidate span of the returned
text parses as JSON, the wrapper returns `json = null` but
`output = "null"` (the serialization of `None`), so a no-JSON success is
distinguishable from a swallowed failure (which has `output = null`). -/
theorem invoke_json_no_json (s : Str) (h : extract_json_strings s = []) :
    invoke_json (.ok s) = ⟨some ("null".data), none⟩ := by
  have e : invoke_json (.ok s) =
      ⟨some (dumpsOpt (extract_json_strings s).head?), (extract_json_strings s).head?⟩ := rfl
  rw [e, h]
  rfl

/-- Witness for `invoke_json_no_json` at the concrete output `"hello"`. -/
theorem invoke_json_no_json_witness :
    invoke_json (.ok ("hello".data)) = ⟨some ("null".data), none⟩ :=
  invoke_json_no_json ("hello".data) rfl

/-- C8: constructing with an empty configuration mapping succeeds for both
adapters, with `api_key = ""`, the adapter-specific default model and (for
the completion adapter) `chat_mode = false`; but constructing the completion
adapter with an ABSENT mapping (`None`) raises, because `__init__` reads the
`type` key from the raw `None` parameter — the code slip behind the C8
code_bug verdict.  The embedding adapter accepts an absent mapping. -/
theorem qwen_init_defaults :
    qwenCompletionInit (some {}) =
      .ok ⟨[], "qwen-turbo".data, .StaticResponse, false⟩ ∧
    (∃ e, qwenCompletionInit none = .error e) ∧
    qwenEmbeddingsInit (some {}) = ⟨[], "text-embedding-v1".data⟩ ∧
    qwenEmbeddingsInit none = ⟨[], "text-embedding-v1".data⟩ :=
  ⟨rfl, ⟨_, rfl⟩, rfl, rfl⟩

/-- C5: on a success-status response, `execute` returns the response
output's `text` field in non-chat mode, and the first choice's message
content in chat mode; the chat request is made at exactly the message list
`history ++ [(role := user, content := substituted input)]` (the hypotheses
pin the oracle at precisely that list, for every oracle). -/
theorem execute_llm_success (cp : Str → GenResponse) (cm : List Message → GenResponse)
    (input : Str) (vars : List (Str × Str)) (history : List Message)
    (txt : Str) (c : Choice) (rest : List Choice)
    (h1 : (cp (replace_placeholders input vars)).status_code = 200)
    (h2 : (cp (replace_placeholders input vars)).output.text = some txt)
    (h3 : (cm (history ++ [⟨"user".data, replace_placeholders input vars⟩])).status_code = 200)
    (h4 : (cm (history ++ [⟨"user".data, replace_placeholders input vars⟩])).output.choices
            = c :: rest) :
    execute_llm false cp cm input vars history = .ok txt ∧
    execute_llm true cp cm input vars history = .ok c.message.content := by
  constructor
  · have e : execute_llm false cp cm input vars history =
        (if (cp (replace_placeholders input vars)).status_code = 200 then
          match (cp (replace_placeholders input vars)).output.text with
          | none => Except.error ("KeyError: text".data)
          | some t => Except.ok t
        else Except.error ("Error ".data ++ (cp (replace_placeholders input vars)).code
          ++ ": ".data ++ (cp (replace_placeholders input vars)).message)) := rfl
    rw [e, if_pos h1, h2]
  · have e : execute_llm true cp cm input vars history =
        (if (cm (history ++ [⟨"user".data, replace_placeholders input vars⟩])).status_code
            = 200 then
          match (cm (history ++ [⟨"user".data,
              replace_placeholders input vars⟩])).output.choices with
          | [] => Except.error ("IndexError".data)
          | c :: _ => Except.ok c.message.content
        else Except.error ("Error ".data
          ++ (cm (history ++ [⟨"user".data, replace_placeholders input vars⟩])).code
          ++ ": ".data
          ++ (cm (history ++ [⟨"user".data,
              replace_placeholders input vars⟩])).message)) := rfl
    rw [e, if_pos h3, h4]

/-- Witness for `execute_llm_success`: a simulated non-chat success response
with `output.text = "hello"` yields `"hello"`, and a simulated chat success
whose first choice's message content is `"hi"` yields `"hi"`. -/
theorem execute_llm_success_witness :
    execute_llm false
      (fun _ => { status_code := 200, output := { text := some ("hello".data) } })
      (fun _ => { status_code := 200,
                  output := { choices := [⟨⟨"assistant".data, "hi".data⟩⟩] } })
      ("q".data) [] [] = .ok ("hello".data) ∧
    execute_llm true
      (fun _ => { status_code := 200, output := { text := some ("hello".data) } })
      (fun _ => { status_code := 200,
                  output := { choices := [⟨⟨"assistant".data, "hi".data⟩⟩] } })
      ("q".data) [] [] = .ok ("hi".data) :=
  execute_llm_success _ _ ("q".data) [] [] ("hello".data) ⟨⟨"assistant".data, "hi".data⟩⟩ []
    rfl rfl rfl rfl

/-- C6: on a non-success status, `execute` raises (returns no value): the
result is an `.error` whose payload is built from the response's `code` and
`message`, and contains both as substrings; both modes behave alike. -/
theorem execute_llm_failure (cp : Str → GenResponse) (cm : List Message → GenResponse)
    (input : Str) (vars : List (Str × Str)) (history : List Message)
    (h1 : (cp (replace_placeholders input vars)).status_code ≠ 200)
    (h2 : (cm (history ++ [⟨"user".data, replace_placeholders input vars⟩])).status_code ≠ 200) :
    (execute_llm false cp cm input vars history =
      .error ("Error ".data ++ (cp (replace_placeholders input vars)).code ++ ": ".data
        ++ (cp (replace_placeholders input vars)).message) ∧
      (cp (replace_placeholders input vars)).code <:+:
        ("Error ".data ++ (cp (replace_placeholders input vars)).code ++ ": ".data
          ++ (cp (replace_placeholders input vars)).message) ∧
      (cp (replace_placeholders input vars)).message <:+:
        ("Error ".data ++ (cp (replace_placeholders input vars)).code ++ ": ".data
          ++ (cp (replace_placeholders input vars)).message)) ∧
    (execute_llm true cp cm input vars history =
      .error ("Error ".data
        ++ (cm (history ++ [⟨"user".data, replace_placeholders input vars⟩])).code ++ ": ".data
        ++ (cm (history ++ [⟨"user".data, replace_placeholders input vars⟩])).message) ∧
      (cm (history ++ [⟨"user".data, replace_placeholders input vars⟩])).code <:+:
        ("Error ".data
          ++ (cm (history ++ [⟨"user".data, replace_placeholders input vars⟩])).code ++ ": ".data
          ++ (cm (history ++ [⟨"user".data, replace_placeholders input vars⟩])).message) ∧
      (cm (history ++ [⟨"user".data, replace_placeholders input vars⟩])).message <:+:
        ("Error ".data
          ++ (cm (history ++ [⟨"user".data, replace_placeholders input vars⟩])).code ++ ": ".data
          ++ (cm (history ++ [⟨"user".data, replace_placeholders input vars⟩])).message)) := by
  constructor
  · refine ⟨?_, ⟨"Error ".data, ": ".data
        ++ (cp (replace_placeholders input vars)).message, by simp⟩,
      ⟨"Error ".data ++ (cp (replace_placeholders input vars)).code ++ ": ".data, [], by simp⟩⟩
    have e : execute_llm false cp cm input vars history =
        (if (cp (replace_placeholders input vars)).status_code = 200 then
          match (cp (replace_placeholders input vars)).output.text with
          | none => Except.error ("KeyError: text".data)
          | some t => Except.ok t
        else Except.error ("Error ".data ++ (cp (replace_placeholders input vars)).code
          ++ ": ".data ++ (cp (replace_placeholders input vars)).message)) := rfl
    rw [e, if_neg h1]
  · refine ⟨?_, ⟨"Error ".data, ": ".data
        ++ (cm (history ++ [⟨"user".data, replace_placeholders input vars⟩])).message, by simp⟩,
      ⟨"Error ".data ++ (cm (history ++ [⟨"user".data, replace_placeholders input vars⟩])).code
        ++ ": ".data, [], by simp⟩⟩
    have e : execute_llm true cp cm input vars history =
        (if (cm (history ++ [⟨"user".data, replace_placeholders input vars⟩])).status_code
            = 200 then
          match (cm (history ++ [⟨"user".data,
              replace_placeholders input vars⟩])).output.choices with
          | [] => Except.error ("IndexError".data)
          | c :: _ => Except.ok c.message.content
        else Except.error ("Error ".data
          ++ (cm (history ++ [⟨"user".data, replace_placeholders input vars⟩])).code
          ++ ": ".data
          ++ (cm (history ++ [⟨"user".data,
              replace_placeholders input vars⟩])).message)) := rfl
    rw [e, if_neg h2]

/-- Witness for `execute_llm_failure`: the simulated failure response
`(status_code = 400, code = "X", message = "bad")` produces a raised error
`"Error X: bad"` containing `"X"` and `"bad"`. -/
theorem execute_llm_failure_witness :
    execute_llm false (fun _ => { status_code := 400, code := "X".data, message := "bad".data })
      (fun _ => { status_code := 400, code := "X".data, message := "bad".data })
      ("q".data) [] [] = .error ("Error X: bad".data) ∧
    "X".data <:+: ("Error X: bad".data) ∧
    "bad".data <:+: ("Error X: bad".data) :=
  (execute_llm_failure
      (fun _ => { status_code := 400, code := "X".data, message := "bad".data })
      (fun _ => { status_code := 400, code := "X".data, message := "bad".data })
      ("q".data) [] [] (by decide) (by decide)).1

/-- C7: on a success-status embedding response the adapter returns exactly
one vector per response item, in response order; on a non-success status it
raises an error carrying the remote `code` and `message` (nothing in the
adapter recovers it). -/
theorem embed_execute_llm_spec (ce : List Str → EmbResponse) (input : List Str) :
    ((ce input).status_code = 200 →
      embed_execute_llm ce input =
        .ok ((ce input).output.embeddings.map fun e => e.embedding) ∧
      ((ce input).output.embeddings.map fun e => e.embedding).length =
        (ce input).output.embeddings.length) ∧
    ((ce input).status_code ≠ 200 →
      embed_execute_llm ce input =
        .error ("Error ".data ++ (ce input).code ++ ": ".data ++ (ce input).message) ∧
      (ce input).code <:+:
        ("Error ".data ++ (ce input).code ++ ": ".data ++ (ce input).message) ∧
      (ce input).message <:+:
        ("Error ".data ++ (ce input).code ++ ": ".data ++ (ce input).message)) := by
  constructor
  · intro h
    refine ⟨?_, List.length_map _ _⟩
    have e : embed_execute_llm ce input =
        (if (ce input).status_code = 200 then
          Except.ok ((ce input).output.embeddings.map fun x => x.embedding)
        else Except.error ("Error ".data ++ (ce input).code ++ ": ".data
          ++ (ce input).message)) := rfl
    rw [e, if_pos h]
  · intro h
    refine ⟨?_, ⟨"Error ".data, ": ".data ++ (ce input).message, by simp⟩,
      ⟨"Error ".data ++ (ce input).code ++ ": ".data, [], by simp⟩⟩
    have e : embed_execute_llm ce input =
        (if (ce input).status_code = 200 then
          Except.ok ((ce input).output.embeddings.map fun x => x.embedding)
        else Except.error ("Error ".data ++ (ce input).code ++ ": ".data
          ++ (ce input).message)) := rfl
    rw [e, if_neg h]

/-- Witness for `embed_execute_llm_spec`: a two-item success response yields
exactly two vectors in order, and a failure response raises an error
containing the remote code and message. -/
theorem embed_execute_llm_spec_witness :
    embed_execute_llm
      (fun _ => { status_code := 200,
                  output := { embeddings := [{ embedding := [1, 2] }, { embedding := [3, 4] }] } })
      ["a".data, "b".data] = .ok [[1, 2], [3, 4]] ∧
    embed_execute_llm
      (fun _ => { status_code := 400, code := "X".data, message := "bad".data })
      ["a".data, "b".data] = .error ("Error X: bad".data) :=
  ⟨((embed_execute_llm_spec
      (fun _ => { status_code := 200,
                  output := { embeddings := [{ embedding := [1, 2] }, { embedding := [3, 4] }] } })
      ["a".data, "b".data]).1 rfl).1,
   ((embed_execute_llm_spec
      (fun _ => { status_code := 400, code := "X".data, message := "bad".data })
      ["a".data, "b".data]).2 (by decide)).1⟩

/-- C10: in chat mode the oracle is consulted at exactly the message list
`history ++ [(user, substituted input)]` — replacing the oracle by its value
at that one list does not change `execute` — and the first `history.length`
entries of that list are the caller's history entries verbatim (whatever
placeholders their contents contain; substitution touches only the new final
user message). -/
theorem chat_sends_history_verbatim (cp : Str → GenResponse)
    (cm : List Message → GenResponse)
    (input : Str) (vars : List (Str × Str)) (history : List Message) :
    execute_llm true cp cm input vars history =
      execute_llm true cp
        (fun _ => cm (history ++ [⟨"user".data, replace_placeholders input vars⟩]))
        input vars history ∧
    (history ++ [Message.mk ("user".data) (replace_placeholders input vars)]).take
        history.length = history :=
  ⟨rfl, List.take_left _ _⟩

/-! ## Lemmas about the balanced-brace scan -/

/-- A successful depth scan consumes at most the whole input. -/
theorem matchLen_le (s : Str) : ∀ (d n : Nat), matchLen s d = some n → n ≤ s.length := by
  induction s with
  | nil => intro d n h; simp [matchLen] at h
  | cons c cs ih =>
    intro d n h
    simp only [matchLen] at h
    split_ifs at h with h1 h2 h3
    · simp only [Option.some.injEq] at h
      simp only [List.length_cons]
      omega
    · obtain ⟨m, hm, rfl⟩ := Option.map_eq_some'.mp h
      have := ih _ _ hm
      simp only [List.length_cons]
      omega
    · obtain ⟨m, hm, rfl⟩ := Option.map_eq_some'.mp h
      have := ih _ _ hm
      simp only [List.length_cons]
      omega
    · obtain ⟨m, hm, rfl⟩ := Option.map_eq_some'.mp h
      have := ih _ _ hm
      simp only [List.length_cons]
      omega

/-- A successful depth scan is unaffected by appending a suffix. -/
theorem matchLen_append (t : Str) : ∀ (d n : Nat) (suf : Str),
    matchLen t d = some n → matchLen (t ++ suf) d = some n := by
  induction t with
  | nil => intro d n suf h; simp [matchLen] at h
  | cons c cs ih =>
    intro d n suf h
    simp only [List.cons_append]
    simp only [matchLen, List.append_eq] at h ⊢
    split_ifs at h ⊢ with h1 h2 h3
    · exact h
    · obtain ⟨m, hm, rfl⟩ := Option.map_eq_some'.mp h
      rw [ih _ _ _ hm]
      rfl
    · obtain ⟨m, hm, rfl⟩ := Option.map_eq_some'.mp h
      rw [ih _ _ _ hm]
      rfl
    · obtain ⟨m, hm, rfl⟩ := Option.map_eq_some'.mp h
      rw [ih _ _ _ hm]
      rfl

/-- The fuel of the findall scan is irrelevant once it covers the input. -/
theorem regexFindallF_stable : ∀ (f g : Nat) (s : Str), s.length ≤ f → s.length ≤ g →
    regexFindallF f s = regexFindallF g s := by
  intro f
  induction f with
  | zero =>
    intro g s hf _
    have : s = [] := List.length_eq_zero.mp (Nat.le_zero.mp hf)
    subst this
    cases g <;> rfl
  | succ f ih =>
    intro g s hf hg
    cases s with
    | nil => cases g <;> rfl
    | cons c cs =>
      cases g with
      | zero => simp at hg
      | succ g =>
        simp only [List.length_cons, Nat.succ_le_succ_iff] at hf hg
        simp only [regexFindallF]
        split_ifs with hc
        · cases hm : matchLen cs 1 with
          | none => exact ih g cs hf hg
          | some n =>
            have hlt : (cs.drop n).length ≤ cs.length := by
              simp [List.length_drop]
            exact congrArg (fun l => ('{' :: cs.take n) :: l)
              (ih g (cs.drop n) (le_trans hlt hf) (le_trans hlt hg))
        · exact ih g cs hf hg

/-- Findall skips a character that is not an opening brace. -/
theorem regexFindall_cons_not (c : Char) (cs : Str) (h : ¬ c = '{') :
    regexFindall (c :: cs) = regexFindall cs := by
  simp [regexFindall, regexFindallF, h]

/-- Findall at an opening brace that opens a balanced span of `n` further
characters: emit the span and resume after it. -/
theorem regexFindall_cons_some (cs : Str) (n : Nat) (h : matchLen cs 1 = some n) :
    regexFindall ('{' :: cs) = ('{' :: cs.take n) :: regexFindall (cs.drop n) := by
  have e : regexFindall ('{' :: cs) =
      (match matchLen cs 1 with
       | some n => ('{' :: cs.take n) :: regexFindallF cs.length (cs.drop n)
       | none => regexFindallF cs.length cs) := rfl
  rw [e, h]
  have hlt : (cs.drop n).length ≤ cs.length := by simp [List.length_drop]
  exact congrArg (fun l => ('{' :: cs.take n) :: l)
    (regexFindallF_stable cs.length (cs.drop n).length (cs.drop n) hlt le_rfl)

/-- Findall skips an opening brace that opens no balanced span. -/
theorem regexFindall_cons_none (cs : Str) (h : matchLen cs 1 = none) :
    regexFindall ('{' :: cs) = regexFindall cs := by
  have e : regexFindall ('{' :: cs) =
      (match matchLen cs 1 with
       | some n => ('{' :: cs.take n) :: regexFindallF cs.length (cs.drop n)
       | none => regexFindallF cs.length cs) := rfl
  rw [e, h]
  rfl

/-- Findall ignores a brace-free prefix. -/
theorem regexFindall_braceFree_append (pre : Str) (s : Str) (hpre : braceFree pre = true) :
    regexFindall (pre ++ s) = regexFindall s := by
  induction pre with
  | nil => rfl
  | cons c cs ih =>
    simp only [braceFree, List.all_cons, Bool.and_eq_true, decide_eq_true_eq,
      bne_iff_ne, ne_eq] at hpre
    rw [List.cons_append, regexFindall_cons_not c _ (by simpa using hpre.1.1)]
    exact ih (by simpa [braceFree] using hpre.2)

/-- Findall on a string beginning with an exactly-balanced span (the depth
scan of `t` consumes all of `t`) emits `{t` and continues on the suffix. -/
theorem regexFindall_exact_span (t suf : Str) (hspan : matchLen t 1 = some t.length) :
    regexFindall (('{' :: t) ++ suf) = ('{' :: t) :: regexFindall suf := by
  have h1 : matchLen (t ++ suf) 1 = some t.length := matchLen_append t 1 t.length suf hspan
  have e : ('{' :: t) ++ suf = '{' :: (t ++ suf) := rfl
  rw [e, regexFindall_cons_some (t ++ suf) t.length h1, List.take_left, List.drop_left]

/-- C4 counterexample: `(\x7b\x7d)` (the two-character text of the empty JSON
object) is valid JSON object text, yet embedded between the prefix `(\x7b)`
and the suffix `(\x7d)` the extraction step recovers nothing at all: the
regex consumes the whole four-character balanced span, which does not parse,
so no candidate span parses to the embedded object. -/
theorem extract_json_strings_counterexample :
    parseJson ("\x7b\x7d".data) = some (.obj []) ∧
    extract_json_strings ("\x7b".data ++ "\x7b\x7d".data ++ "\x7d".data) = [] :=
  ⟨rfl, rfl⟩

/-- C4 amended: if the prefix is brace-free and every brace of the embedded
JSON object text `(\x7b) :: t` is structural — the depth scan of `t` closes
exactly at its end, in particular no braces hide inside string literals —
then the parse of that text appears among the extraction results, whatever
the suffix. -/
theorem extract_json_recovers (pre t suf : Str) (j : Json)
    (hpre : braceFree pre = true)
    (hspan : matchLen t 1 = some t.length)
    (hparse : parseJson ('{' :: t) = some j) :
    j ∈ extract_json_strings (pre ++ ('{' :: t) ++ suf) := by
  unfold extract_json_strings
  rw [List.append_assoc, regexFindall_braceFree_append pre _ hpre,
    regexFindall_exact_span t suf hspan, List.filterMap_cons, hparse]
  exact List.mem_cons_self _ _

/-- Witness for `extract_json_recovers`: the object text `(\x7b"a": 1\x7d)`
inside `x ... y` is recovered. -/
theorem extract_json_recovers_witness :
    Json.obj [("a".data, Json.num 1)] ∈
      extract_json_strings ("x ".data ++ ('{' :: "\"a\": 1\x7d".data) ++ " y".data) :=
  extract_json_recovers ("x ".data) ("\"a\": 1\x7d".data) (" y".data)
    (Json.obj [("a".data, Json.num 1)]) (by decide) (by decide) rfl

/-! ## Lemmas towards the `json.loads`/`json.dumps` round trip -/

/-- Digit characters evaluate back to their value. -/
theorem digitVal_digitChar (d : Nat) (h : d < 10) : digitVal (digitChar d) = d := by
  interval_cases d <;> rfl

/-- Digit characters are digits. -/
theorem isDigitC_digitChar (d : Nat) (h : d < 10) : isDigitC (digitChar d) = true := by
  interval_cases d <;> rfl

/-- Nonzero digits do not render as `'0'`. -/
theorem digitChar_ne_zero (d : Nat) (h : d < 10) (h0 : d ≠ 0) : digitChar d ≠ '0' := by
  interval_cases d <;> first | exact absurd rfl h0 | decide

/-- A digit character is none of the parser's other dispatch characters. -/
theorem isDigitC_spec (c : Char) (h : isDigitC c = true) :
    c ≠ '{' ∧ c ≠ '[' ∧ c ≠ '"' ∧ c ≠ 'n' ∧ c ≠ 't' ∧ c ≠ 'f' ∧ isWsC c = false ∧
    c ≠ ']' ∧ c ≠ '}' ∧ c ≠ ',' ∧ c ≠ ':' ∧ c ≠ '-' := by
  simp only [isDigitC, Bool.or_eq_true, decide_eq_true_eq] at h
  rcases h with ((((((((h | h) | h) | h) | h) | h) | h) | h) | h) | h <;> subst h <;> decide

/-- Skipping whitespace leaves a non-whitespace head alone. -/
theorem skipWs_cons_not (c : Char) (s : Str) (h : isWsC c = false) :
    skipWs (c :: s) = c :: s := by
  simp [skipWs, h]

/-- Skipping whitespace consumes a whitespace head. -/
theorem skipWs_cons_ws (c : Char) (s : Str) (h : isWsC c = true) :
    skipWs (c :: s) = skipWs s := by
  simp [skipWs, h]

/-- String-literal round trip: parsing the escaped rendering of `s` followed
by a closing quote recovers `s` and the rest. -/
theorem parseStringBody_escape (s : Str) :
    ∀ rest, parseStringBody (escapeStr s ++ ('"' :: rest)) = some (s, rest) := by
  induction s with
  | nil =>
    intro rest
    simp only [escapeStr, List.flatMap_nil, List.nil_append]
    rw [parseStringBody.eq_def]
    rfl
  | cons c cs ih =>
    intro rest
    have e : escapeStr (c :: cs) ++ ('"' :: rest)
        = escapeChar c ++ (escapeStr cs ++ ('"' :: rest)) := by
      show (escapeChar c ++ escapeStr cs) ++ ('"' :: rest) = _
      rw [List.append_assoc]
    rw [e]
    by_cases h1 : c = '"'
    · subst h1; simp [escapeChar, parseStringBody, unescape, ih rest]
    · by_cases h2 : c = '\\'
      · subst h2; simp [escapeChar, parseStringBody, unescape, ih rest]
      · by_cases h3 : c = '\n'
        · subst h3; simp [escapeChar, parseStringBody, unescape, ih rest]
        · by_cases h4 : c = '\t'
          · subst h4; simp [escapeChar, parseStringBody, unescape, ih rest]
          · by_cases h5 : c = '\r'
            · subst h5; simp [escapeChar, parseStringBody, unescape, ih rest]
            · rw [show escapeChar c = [c] from by simp [escapeChar, h1, h2, h3, h4, h5],
                List.singleton_append]
              rw [show parseStringBody (c :: (escapeStr cs ++ '"' :: rest))
                  = (match parseStringBody (escapeStr cs ++ '"' :: rest) with
                     | some p => some (c :: p.1, p.2)
                     | none => none) from by
                rw [parseStringBody.eq_def]
                simp [h1, h2]]
              rw [ih rest]

/-- A digit run followed by a non-digit splits off exactly. -/
theorem takeDigits_append (ds : Str) :
    ∀ rest, ds.all isDigitC = true → headIsDigit rest = false →
    takeDigits (ds ++ rest) = (ds, rest) := by
  induction ds with
  | nil =>
    intro rest _ hr
    cases rest with
    | nil => rfl
    | cons c cs =>
      simp only [headIsDigit] at hr
      simp [takeDigits, hr]
  | cons d ds ih =>
    intro rest hall hr
    simp only [List.all_cons, Bool.and_eq_true] at hall
    simp [takeDigits, hall.1, ih rest hall.2 hr]

/-- Decimal evaluation distributes over append via the accumulator. -/
theorem digitsToNatAux_append (xs : Str) :
    ∀ (ys : Str) (acc : Nat),
    digitsToNatAux acc (xs ++ ys) = digitsToNatAux (digitsToNatAux acc xs) ys := by
  induction xs with
  | nil => intro ys acc; rfl
  | cons x xs ih =>
    intro ys acc
    simp only [List.cons_append, digitsToNatAux, List.append_eq, ih]

/-- The decimal rendering (at sufficient fuel) is all digits and nonempty. -/
theorem natToDigitsF_digits : ∀ (f n : Nat), n < 10 ^ (f + 1) →
    (natToDigitsF (f + 1) n).all isDigitC = true ∧ natToDigitsF (f + 1) n ≠ [] := by
  intro f
  induction f with
  | zero =>
    intro n h
    have h10 : n < 10 := by simpa using h
    simp [natToDigitsF, h10, isDigitC_digitChar n h10]
  | succ f ih =>
    intro n h
    by_cases h10 : n < 10
    · simp [natToDigitsF, h10, isDigitC_digitChar n h10]
    · have hd : n / 10 < 10 ^ (f + 1) := by
        rw [Nat.div_lt_iff_lt_mul (by norm_num)]
        calc n < 10 ^ (f + 1 + 1) := h
          _ = 10 ^ (f + 1) * 10 := by ring
      obtain ⟨ha, hne⟩ := ih (n / 10) hd
      have e : natToDigitsF (f + 1 + 1) n
          = natToDigitsF (f + 1) (n / 10) ++ [digitChar (n % 10)] := by
        simp [natToDigitsF, h10]
      rw [e]
      constructor
      · rw [List.all_append]
        simp [ha, isDigitC_digitChar (n % 10) (Nat.mod_lt _ (by norm_num))]
      · simp

/-- The decimal rendering (at sufficient fuel) evaluates back to its value. -/
theorem natToDigitsF_val : ∀ (f n : Nat), n < 10 ^ (f + 1) →
    digitsToNat (natToDigitsF (f + 1) n) = n := by
  intro f
  induction f with
  | zero =>
    intro n h
    have h10 : n < 10 := by simpa using h
    simp [natToDigitsF, h10, digitsToNat, digitsToNatAux, digitVal_digitChar n h10]
  | succ f ih =>
    intro n h
    by_cases h10 : n < 10
    · simp [natToDigitsF, h10, digitsToNat, digitsToNatAux, digitVal_digitChar n h10]
    · have hd : n / 10 < 10 ^ (f + 1) := by
        rw [Nat.div_lt_iff_lt_mul (by norm_num)]
        calc n < 10 ^ (f + 1 + 1) := h
          _ = 10 ^ (f + 1) * 10 := by ring
      have e : natToDigitsF (f + 1 + 1) n
          = natToDigitsF (f + 1) (n / 10) ++ [digitChar (n % 10)] := by
        simp [natToDigitsF, h10]
      have ihv : digitsToNatAux 0 (natToDigitsF (f + 1) (n / 10)) = n / 10 := ih (n / 10) hd
      show digitsToNatAux 0 (natToDigitsF (f + 1 + 1) n) = n
      rw [e, digitsToNatAux_append, ihv]
      show (n / 10) * 10 + digitVal (digitChar (n % 10)) = n
      rw [digitVal_digitChar (n % 10) (Nat.mod_lt _ (by norm_num))]
      omega

/-- The decimal rendering of a nonzero value has no leading `'0'`. -/
theorem natToDigitsF_head : ∀ (f n : Nat), n < 10 ^ (f + 1) → n ≠ 0 →
    (natToDigitsF (f + 1) n).head? ≠ some '0' := by
  intro f
  induction f with
  | zero =>
    intro n h h0
    have h10 : n < 10 := by simpa using h
    simp only [natToDigitsF, if_pos h10, List.head?_cons, ne_eq, Option.some.injEq]
    exact digitChar_ne_zero n h10 h0
  | succ f ih =>
    intro n h h0
    by_cases h10 : n < 10
    · simp only [natToDigitsF, if_pos h10, List.head?_cons, ne_eq, Option.some.injEq]
      exact digitChar_ne_zero n h10 h0
    · have hd : n / 10 < 10 ^ (f + 1) := by
        rw [Nat.div_lt_iff_lt_mul (by norm_num)]
        calc n < 10 ^ (f + 1 + 1) := h
          _ = 10 ^ (f + 1) * 10 := by ring
      have e : natToDigitsF (f + 1 + 1) n
          = natToDigitsF (f + 1) (n / 10) ++ [digitChar (n % 10)] := by
        simp [natToDigitsF, h10]
      rw [e]
      obtain ⟨_, hne⟩ := natToDigitsF_digits f (n / 10) hd
      obtain ⟨a, as, ha⟩ : ∃ a as, natToDigitsF (f + 1) (n / 10) = a :: as := by
        cases hx : natToDigitsF (f + 1) (n / 10) with
        | nil => exact absurd hx hne
        | cons a as => exact ⟨a, as, rfl⟩
      have h0' : n / 10 ≠ 0 := by omega
      have hh := ih (n / 10) hd h0'
      rw [ha] at hh ⊢
      simpa using hh

/-- Every natural is below `10 ^ (n + 1)`. -/
theorem natToDigits_fuel (n : Nat) : n < 10 ^ (n + 1) :=
  lt_of_le_of_lt (Nat.le_succ n) (Nat.lt_pow_self (by norm_num) (n + 1))

/-- Unsigned-number round trip. -/
theorem parseNatNum_round (n : Nat) (rest : Str) (hr : headIsDigit rest = false) :
    parseNatNum (natToDigits n ++ rest) = some (n, rest) := by
  have hlt := natToDigits_fuel n
  obtain ⟨hall, hne⟩ := natToDigitsF_digits n n hlt
  have ht : takeDigits (natToDigits n ++ rest) = (natToDigits n, rest) :=
    takeDigits_append _ rest hall hr
  by_cases hn0 : n = 0
  · subst hn0
    unfold parseNatNum
    rw [ht]
    rfl
  · have hval : digitsToNat (natToDigits n) = n := natToDigitsF_val n n hlt
    have hhead : (natToDigits n).head? ≠ some '0' := natToDigitsF_head n n hlt hn0
    have hne2 : natToDigits n ≠ [] := hne
    cases hd : natToDigits n with
    | nil => exact absurd hd hne2
    | cons d ds =>
      rw [hd] at hhead hval ht
      have hdne : d ≠ '0' := by simpa using hhead
      have e : parseNatNum ((d :: ds) ++ rest)
          = if d = '0' && ds ≠ [] then none else some (digitsToNat (d :: ds), rest) := by
        unfold parseNatNum
        rw [ht]
      rw [e, if_neg (by simp [hdne]), hval]

/-- Signed-number round trip. -/
theorem parseNumber_round (i : Int) (rest : Str) (hr : headIsDigit rest = false) :
    parseNumber (intToStr i ++ rest) = some (i, rest) := by
  by_cases hneg : i < 0
  · have e : intToStr i = '-' :: natToDigits i.natAbs := by simp [intToStr, hneg]
    rw [e, List.cons_append]
    have e2 : parseNumber ('-' :: (natToDigits i.natAbs ++ rest))
        = (parseNatNum (natToDigits i.natAbs ++ rest)).map
            fun p => (-(p.1 : Int), p.2) := by
      simp [parseNumber]
    rw [e2, parseNatNum_round _ _ hr]
    simp only [Option.map_some', Option.some.injEq, Prod.mk.injEq, and_true]
    rw [Int.ofNat_natAbs_of_nonpos (le_of_lt hneg), neg_neg]
  · have hpos : 0 ≤ i := not_lt.mp hneg
    have e : intToStr i = natToDigits i.natAbs := by simp [intToStr, hneg]
    have hlt := natToDigits_fuel i.natAbs
    obtain ⟨hall, hne⟩ := natToDigitsF_digits i.natAbs i.natAbs hlt
    have hall2 : (natToDigits i.natAbs).all isDigitC = true := hall
    have hne2 : natToDigits i.natAbs ≠ [] := hne
    cases hd : natToDigits i.natAbs with
    | nil => exact absurd hd hne2
    | cons d ds =>
      rw [hd] at hall2
      have hdig : isDigitC d = true := by
        simp only [List.all_cons, Bool.and_eq_true] at hall2
        exact hall2.1
      have hdm : d ≠ '-' := (isDigitC_spec d hdig).2.2.2.2.2.2.2.2.2.2.2
      rw [e, hd, List.cons_append]
      have e2 : parseNumber (d :: (ds ++ rest))
          = (parseNatNum (d :: (ds ++ rest))).map fun p => ((p.1 : Int), p.2) := by
        simp [parseNumber, hdm]
      rw [e2, ← List.cons_append, ← hd, parseNatNum_round i.natAbs rest hr]
      simp [Int.natAbs_of_nonneg hpos]

/-- Whitespace skipping is idempotent. -/
theorem skipWs_idem (s : Str) : skipWs (skipWs s) = skipWs s := by
  induction s with
  | nil => rfl
  | cons c cs ih =>
    by_cases h : isWsC c = true
    · rw [skipWs_cons_ws c cs h, ih]
    · have h' : isWsC c = false := by revert h; cases isWsC c <;> simp
      rw [skipWs_cons_not c cs h', skipWs_cons_not c cs h']

/-- The value parser ignores a leading whitespace character. -/
theorem parseVal_cons_ws (f : Nat) (c : Char) (s : Str) (h : isWsC c = true) :
    parseVal f (c :: s) = parseVal f s := by
  cases f with
  | zero => rfl
  | succ f =>
    simp only [parseVal]
    rw [skipWs_cons_ws c s h]

/-- The element-list parser ignores a leading whitespace character. -/
theorem parseElems_cons_ws (f : Nat) (c : Char) (s : Str) (h : isWsC c = true) :
    parseElems (f + 1) (c :: s) = parseElems (f + 1) s := by
  simp only [parseElems]
  rw [parseVal_cons_ws f c s h]

/-- Every JSON value has positive size. -/
theorem jsize_pos (j : Json) : 1 ≤ jsize j := by
  cases j <;> simp [jsize] <;> omega

/-- Element lists of positive length have size at least 2. -/
theorem jsizeArr_cons_ge (x : Json) (xs : List Json) : 2 ≤ jsizeArr (x :: xs) := by
  have := jsize_pos x
  simp [jsizeArr]
  omega

/-- The decimal rendering is a digit-headed nonempty string. -/
theorem natToDigits_cons (n : Nat) :
    ∃ d ds, natToDigits n = d :: ds ∧ isDigitC d = true := by
  obtain ⟨hall, hne⟩ := natToDigitsF_digits n n (natToDigits_fuel n)
  have hall2 : (natToDigits n).all isDigitC = true := hall
  have hne2 : natToDigits n ≠ [] := hne
  cases hd : natToDigits n with
  | nil => exact absurd hd hne2
  | cons d ds =>
    rw [hd] at hall2
    simp only [List.all_cons, Bool.and_eq_true] at hall2
    exact ⟨d, ds, rfl, hall2.1⟩

/-- The integer rendering is nonempty and starts with a digit or a minus. -/
theorem intToStr_head (i : Int) :
    ∃ c cs, intToStr i = c :: cs ∧ (isDigitC c = true ∨ c = '-') := by
  by_cases hneg : i < 0
  · exact ⟨'-', natToDigits i.natAbs, by simp [intToStr, hneg], Or.inr rfl⟩
  · obtain ⟨d, ds, hd, hdig⟩ := natToDigits_cons i.natAbs
    exact ⟨d, ds, by simp [intToStr, hneg, hd], Or.inl hdig⟩

/-- Shape of a rendered string value with a continuation. -/
theorem dumps_str_shape (s : Str) (rest : Str) :
    dumps (.str s) ++ rest = '"' :: (escapeStr s ++ ('"' :: rest)) := by
  show ('"' :: (escapeStr s ++ ['"'])) ++ rest = _
  simp [List.cons_append, List.append_assoc]

/-- Shape of a rendered nonempty array with a continuation. -/
theorem dumps_arr_shape (e : Json) (es : List Json) (rest : Str) :
    dumps (.arr (e :: es)) ++ rest = '[' :: (dumps e ++ (dumpsArr es ++ (']' :: rest))) := by
  show ('[' :: (dumps e ++ dumpsArr es ++ [']'])) ++ rest = _
  simp [List.cons_append, List.append_assoc]

/-- Shape of a rendered nonempty object with a continuation. -/
theorem dumps_obj_shape (m : Str × Json) (ms : List (Str × Json)) (rest : Str) :
    dumps (.obj (m :: ms)) ++ rest
      = '{' :: (dumpsMember m ++ (dumpsObj ms ++ ('}' :: rest))) := by
  show ('{' :: (dumpsMember m ++ dumpsObj ms ++ ['}'])) ++ rest = _
  simp [List.cons_append, List.append_assoc]

/-- Shape of a rendered object member with a continuation. -/
theorem dumpsMember_shape (k : Str) (v : Json) (rest : Str) :
    dumpsMember (k, v) ++ rest
      = '"' :: (escapeStr k ++ ('"' :: (':' :: (' ' :: (dumps v ++ rest))))) := by
  show ('"' :: escapeStr k ++ ['"'] ++ (':' :: ' ' :: dumps v)) ++ rest = _
  simp [List.cons_append, List.append_assoc]

/-- Shape of a rendered tail element list with a continuation. -/
theorem dumpsArr_shape (x : Json) (xs : List Json) (rest : Str) :
    dumpsArr (x :: xs) ++ rest = ',' :: (' ' :: (dumps x ++ (dumpsArr xs ++ rest))) := by
  show (',' :: ' ' :: dumps x ++ dumpsArr xs) ++ rest = _
  simp [List.cons_append, List.append_assoc]

/-- Shape of a rendered tail member list with a continuation. -/
theorem dumpsObj_shape (m : Str × Json) (ms : List (Str × Json)) (rest : Str) :
    dumpsObj (m :: ms) ++ rest = ',' :: (' ' :: (dumpsMember m ++ (dumpsObj ms ++ rest))) := by
  show (',' :: ' ' :: dumpsMember m ++ dumpsObj ms) ++ rest = _
  simp [List.cons_append, List.append_assoc]

/-- Every rendering starts with a character that is neither whitespace nor a
closing bracket or brace. -/
theorem dumps_head (j : Json) :
    ∃ c cs, dumps j = c :: cs ∧ isWsC c = false ∧ c ≠ ']' ∧ c ≠ '}' := by
  cases j with
  | num i =>
    obtain ⟨c, cs, hc, hcc⟩ := intToStr_head i
    refine ⟨c, cs, hc, ?_, ?_, ?_⟩ <;>
      rcases hcc with h | h
    · exact (isDigitC_spec c h).2.2.2.2.2.2.1
    · subst h; decide
    · exact (isDigitC_spec c h).2.2.2.2.2.2.2.1
    · subst h; decide
    · exact (isDigitC_spec c h).2.2.2.2.2.2.2.2.1
    · subst h; decide
  | bool b => cases b <;> refine ⟨_, _, rfl, ?_, ?_, ?_⟩ <;> decide
  | arr l => cases l <;> refine ⟨_, _, rfl, ?_, ?_, ?_⟩ <;> decide
  | obj m => cases m <;> refine ⟨_, _, rfl, ?_, ?_, ?_⟩ <;> decide
  | null => refine ⟨_, _, rfl, ?_, ?_, ?_⟩ <;> decide
  | str s => refine ⟨_, _, rfl, ?_, ?_, ?_⟩ <;> decide

/-- Dispatch of the value parser at a number head. -/
theorem parseVal_dispatch_num (f : Nat) (c : Char) (cs : Str)
    (h : isDigitC c = true ∨ c = '-') :
    parseVal (f + 1) (c :: cs) =
      (match parseNumber (c :: cs) with
       | some p => some (Json.num p.1, p.2)
       | none => none) := by
  obtain ⟨h1, h2, h3, h4, h5, h6, hws⟩ :
      c ≠ '{' ∧ c ≠ '[' ∧ c ≠ '"' ∧ c ≠ 'n' ∧ c ≠ 't' ∧ c ≠ 'f' ∧ isWsC c = false := by
    rcases h with h | h
    · obtain ⟨a1, a2, a3, a4, a5, a6, a7, _⟩ := isDigitC_spec c h
      exact ⟨a1, a2, a3, a4, a5, a6, a7⟩
    · subst h; exact ⟨by decide, by decide, by decide, by decide, by decide, by decide, rfl⟩
  simp only [parseVal]
  rw [skipWs_cons_not c cs hws]
  simp [h1, h2, h3, h4, h5, h6]

/-- Unfolding the member parser at a rendered key. -/
theorem parseMembers_start (f : Nat) (k : Str) (X : Str) :
    parseMembers (f + 1) ('"' :: (escapeStr k ++ ('"' :: X)))
      = (match skipWs X with
         | [] => none
         | c1 :: r2 =>
           if c1 = ':' then
             match parseVal f r2 with
             | some vp =>
               match skipWs vp.2 with
               | [] => none
               | c2 :: r4 =>
                 if c2 = ',' then
                   match parseMembers f (skipWs r4) with
                   | some mp => some ((k, vp.1) :: mp.1, mp.2)
                   | none => none
                 else if c2 = '}' then some ([(k, vp.1)], r4)
                 else none
             | none => none
           else none) := by
  simp only [parseMembers]
  rw [parseStringBody_escape k X]
  rfl

/-- Element-list round trip, given the value round trip below size `N`. -/
theorem parseElems_round (N : Nat)
    (IH : ∀ (j : Json) (f : Nat) (rest : Str), jsize j ≤ N → jsize j ≤ f →
      headIsDigit rest = false → parseVal f (dumps j ++ rest) = some (j, rest)) :
    ∀ (es : List Json) (e : Json) (f : Nat) (rest : Str),
      jsize e ≤ N → jsizeArr es ≤ N →
      1 + jsize e + jsizeArr es ≤ f → headIsDigit rest = false →
      parseElems f (dumps e ++ (dumpsArr es ++ (']' :: rest))) = some (e :: es, rest) := by
  intro es
  induction es with
  | nil =>
    intro e f rest hN _ hf hrest
    obtain ⟨g, rfl⟩ : ∃ g, f = g + 1 := ⟨f - 1, by omega⟩
    have hg : jsize e ≤ g := by simp [jsizeArr] at hf; omega
    have hv := IH e g (']' :: rest) hN hg rfl
    simp only [dumpsArr, List.nil_append]
    simp only [parseElems]
    rw [hv]
    rfl
  | cons x xs ih =>
    intro e f rest hN hxs hf hrest
    have hx : jsize x ≤ N := by simp [jsizeArr] at hxs; omega
    have hxs2 : jsizeArr xs ≤ N := by simp [jsizeArr] at hxs; omega
    obtain ⟨g, rfl⟩ : ∃ g, f = g + 1 := ⟨f - 1, by omega⟩
    obtain ⟨g2, rfl⟩ : ∃ g2, g = g2 + 1 := by
      refine ⟨g - 1, ?_⟩
      have h1 := jsize_pos e
      have h2 := jsize_pos x
      simp [jsizeArr] at hf
      omega
    rw [dumpsArr_shape x xs (']' :: rest)]
    have hg : jsize e ≤ g2 + 1 := by simp [jsizeArr] at hf; omega
    have hv := IH e (g2 + 1)
      (',' :: (' ' :: (dumps x ++ (dumpsArr xs ++ (']' :: rest))))) hN hg rfl
    simp only [parseElems]
    rw [hv]
    show (match parseElems (g2 + 1) (' ' :: (dumps x ++ (dumpsArr xs ++ (']' :: rest)))) with
         | some ep => some (e :: ep.1, ep.2)
         | none => none) = some (e :: x :: xs, rest)
    rw [parseElems_cons_ws g2 ' ' _ rfl]
    rw [ih x (g2 + 1) rest hx hxs2 (by simp [jsizeArr] at hf; omega) hrest]

/-- Member-list round trip, given the value round trip below size `N`. -/
theorem parseMembers_round (N : Nat)
    (IH : ∀ (j : Json) (f : Nat) (rest : Str), jsize j ≤ N → jsize j ≤ f →
      headIsDigit rest = false → parseVal f (dumps j ++ rest) = some (j, rest)) :
    ∀ (ms : List (Str × Json)) (k : Str) (v : Json) (f : Nat) (rest : Str),
      jsize v ≤ N → jsizeObj ms ≤ N →
      1 + jsize v + jsizeObj ms ≤ f → headIsDigit rest = false →
      parseMembers f (dumpsMember (k, v) ++ (dumpsObj ms ++ ('}' :: rest)))
        = some ((k, v) :: ms, rest) := by
  intro ms
  induction ms with
  | nil =>
    intro k v f rest hN _ hf hrest
    obtain ⟨g, rfl⟩ : ∃ g, f = g + 1 := ⟨f - 1, by omega⟩
    have hg : jsize v ≤ g := by simp [jsizeObj] at hf; omega
    rw [show dumpsObj [] ++ ('}' :: rest) = '}' :: rest from rfl]
    rw [dumpsMember_shape k v ('}' :: rest)]
    rw [parseMembers_start g k (':' :: (' ' :: (dumps v ++ ('}' :: rest))))]
    have estep : (match skipWs (':' :: (' ' :: (dumps v ++ ('}' :: rest)))) with
         | [] => none
         | c1 :: r2 =>
           if c1 = ':' then
             match parseVal g r2 with
             | some vp =>
               match skipWs vp.2 with
               | [] => none
               | c2 :: r4 =>
                 if c2 = ',' then
                   match parseMembers g (skipWs r4) with
                   | some mp => some ((k, vp.1) :: mp.1, mp.2)
                   | none => none
                 else if c2 = '}' then some ([(k, vp.1)], r4)
                 else none
             | none => none
           else none)
        = (match parseVal g (' ' :: (dumps v ++ ('}' :: rest))) with
           | some vp =>
             (match skipWs vp.2 with
              | [] => none
              | c2 :: r4 =>
                if c2 = ',' then
                  match parseMembers g (skipWs r4) with
                  | some mp => some ((k, vp.1) :: mp.1, mp.2)
                  | none => none
                else if c2 = '}' then some ([(k, vp.1)], r4)
                else none)
           | none => none) := rfl
    rw [estep, parseVal_cons_ws g ' ' _ rfl, IH v g ('}' :: rest) hN hg rfl]
    rfl
  | cons m mr ih =>
    intro k v f rest hN hms hf hrest
    obtain ⟨k2, v2⟩ := m
    have hv2 : jsize v2 ≤ N := by simp [jsizeObj] at hms; omega
    have hmr : jsizeObj mr ≤ N := by simp [jsizeObj] at hms; omega
    obtain ⟨g, rfl⟩ : ∃ g, f = g + 1 := ⟨f - 1, by omega⟩
    have hg : jsize v ≤ g := by simp [jsizeObj] at hf; omega
    rw [dumpsObj_shape (k2, v2) mr ('}' :: rest)]
    rw [dumpsMember_shape k v _]
    rw [parseMembers_start g k _]
    have estep : (match skipWs (':' :: (' ' :: (dumps v ++ (',' :: (' ' ::
            (dumpsMember (k2, v2) ++ (dumpsObj mr ++ ('}' :: rest)))))))) with
         | [] => none
         | c1 :: r2 =>
           if c1 = ':' then
             match parseVal g r2 with
             | some vp =>
               match skipWs vp.2 with
               | [] => none
               | c2 :: r4 =>
                 if c2 = ',' then
                   match parseMembers g (skipWs r4) with
                   | some mp => some ((k, vp.1) :: mp.1, mp.2)
                   | none => none
                 else if c2 = '}' then some ([(k, vp.1)], r4)
                 else none
             | none => none
           else none)
        = (match parseVal g (' ' :: (dumps v ++ (',' :: (' ' ::
              (dumpsMember (k2, v2) ++ (dumpsObj mr ++ ('}' :: rest))))))) with
           | some vp =>
             (match skipWs vp.2 with
              | [] => none
              | c2 :: r4 =>
                if c2 = ',' then
                  match parseMembers g (skipWs r4) with
                  | some mp => some ((k, vp.1) :: mp.1, mp.2)
                  | none => none
                else if c2 = '}' then some ([(k, vp.1)], r4)
                else none)
           | none => none) := rfl
    rw [estep, parseVal_cons_ws g ' ' _ rfl,
      IH v g (',' :: (' ' :: (dumpsMember (k2, v2) ++ (dumpsObj mr ++ ('}' :: rest)))))
        hN hg rfl]
    have estep2 : (match (some (v, ',' :: (' ' :: (dumpsMember (k2, v2)
            ++ (dumpsObj mr ++ ('}' :: rest)))))
              : Option (Json × Str)) with
           | some vp =>
             (match skipWs vp.2 with
              | [] => none
              | c2 :: r4 =>
                if c2 = ',' then
                  match parseMembers g (skipWs r4) with
                  | some mp => some ((k, vp.1) :: mp.1, mp.2)
                  | none => none
                else if c2 = '}' then some ([(k, vp.1)], r4)
                else none)
           | none => none)
        = (match parseMembers g (skipWs (' ' :: (dumpsMember (k2, v2)
              ++ (dumpsObj mr ++ ('}' :: rest))))) with
           | some mp => some ((k, v) :: mp.1, mp.2)
           | none => none) := rfl
    rw [estep2, skipWs_cons_ws ' ' _ rfl]
    rw [show skipWs (dumpsMember (k2, v2) ++ (dumpsObj mr ++ ('}' :: rest)))
        = dumpsMember (k2, v2) ++ (dumpsObj mr ++ ('}' :: rest)) from by
      rw [dumpsMember_shape k2 v2 _]
      exact skipWs_cons_not '"' _ rfl]
    rw [ih k2 v2 g rest hv2 hmr (by simp [jsizeObj] at hf; omega) hrest]

/-- Value round trip: the parser recovers any rendered JSON value (the rest
must not start with a digit, so that number literals end where they should).
`N` bounds the value size for the induction. -/
theorem parse_dumps : ∀ (N : Nat) (j : Json) (f : Nat) (rest : Str),
    jsize j ≤ N → jsize j ≤ f → headIsDigit rest = false →
    parseVal f (dumps j ++ rest) = some (j, rest) := by
  intro N
  induction N with
  | zero => intro j f rest hN _ _; exact absurd hN (by have := jsize_pos j; omega)
  | succ N ih =>
    intro j f rest hN hf hrest
    obtain ⟨g, rfl⟩ : ∃ g, f = g + 1 := ⟨f - 1, by have := jsize_pos j; omega⟩
    cases j with
    | null => rfl
    | bool b => cases b <;> rfl
    | num i =>
      obtain ⟨c, cs, hc, hcc⟩ := intToStr_head i
      have e0 : dumps (.num i) ++ rest = c :: (cs ++ rest) := by
        show intToStr i ++ rest = _
        rw [hc, List.cons_append]
      rw [e0, parseVal_dispatch_num g c (cs ++ rest) hcc]
      rw [show (c :: (cs ++ rest)) = intToStr i ++ rest from by rw [hc, List.cons_append]]
      rw [parseNumber_round i rest hrest]
    | str s =>
      rw [dumps_str_shape s rest]
      have e1 : parseVal (g + 1) ('"' :: (escapeStr s ++ ('"' :: rest)))
          = (match parseStringBody (escapeStr s ++ ('"' :: rest)) with
             | some p => some (Json.str p.1, p.2)
             | none => none) := rfl
      rw [e1, parseStringBody_escape s rest]
    | arr l =>
      cases l with
      | nil => rfl
      | cons e es =>
        rw [dumps_arr_shape e es rest]
        have e1 : parseVal (g + 1) ('[' :: (dumps e ++ (dumpsArr es ++ (']' :: rest))))
            = (match skipWs (dumps e ++ (dumpsArr es ++ (']' :: rest))) with
               | [] => none
               | c1 :: s1 =>
                 if c1 = ']' then some (Json.arr [], s1)
                 else
                   match parseElems g (c1 :: s1) with
                   | some p => some (Json.arr p.1, p.2)
                   | none => none) := rfl
        rw [e1]
        obtain ⟨c0, cs0, hd, hws, hrb, _⟩ := dumps_head e
        rw [hd, List.cons_append, skipWs_cons_not c0 _ hws]
        show (if c0 = ']' then some (Json.arr [], cs0 ++ (dumpsArr es ++ (']' :: rest)))
              else
                match parseElems g (c0 :: (cs0 ++ (dumpsArr es ++ (']' :: rest)))) with
                | some p => some (Json.arr p.1, p.2)
                | none => none) = some (Json.arr (e :: es), rest)
        rw [if_neg hrb, ← List.cons_append, ← hd]
        have h1 : jsize e ≤ N := by simp [jsize, jsizeArr] at hN; omega
        have h2 : jsizeArr es ≤ N := by simp [jsize, jsizeArr] at hN; omega
        have h3 : 1 + jsize e + jsizeArr es ≤ g := by simp [jsize, jsizeArr] at hf; omega
        rw [parseElems_round N ih es e g rest h1 h2 h3 hrest]
    | obj m =>
      cases m with
      | nil => rfl
      | cons p ms =>
        obtain ⟨k, v⟩ := p
        rw [dumps_obj_shape (k, v) ms rest]
        have e1 : parseVal (g + 1)
              ('{' :: (dumpsMember (k, v) ++ (dumpsObj ms ++ ('}' :: rest))))
            = (match skipWs (dumpsMember (k, v) ++ (dumpsObj ms ++ ('}' :: rest))) with
               | [] => none
               | c1 :: s1 =>
                 if c1 = '}' then some (Json.obj [], s1)
                 else
                   match parseMembers g (c1 :: s1) with
                   | some p => some (Json.obj p.1, p.2)
                   | none => none) := rfl
        rw [e1]
        rw [show skipWs (dumpsMember (k, v) ++ (dumpsObj ms ++ ('}' :: rest)))
            = dumpsMember (k, v) ++ (dumpsObj ms ++ ('}' :: rest)) from by
          rw [dumpsMember_shape k v _]
          exact skipWs_cons_not '"' _ rfl]
        rw [dumpsMember_shape k v (dumpsObj ms ++ ('}' :: rest))]
        show (match parseMembers g ('"' :: (escapeStr k ++ ('"' :: (':' :: (' ' ::
                  (dumps v ++ (dumpsObj ms ++ ('}' :: rest)))))))) with
              | some p => some (Json.obj p.1, p.2)
              | none => none) = some (Json.obj ((k, v) :: ms), rest)
        rw [← dumpsMember_shape k v _]
        have h1 : jsize v ≤ N := by simp [jsize, jsizeObj] at hN; omega
        have h2 : jsizeObj ms ≤ N := by simp [jsize, jsizeObj] at hN; omega
        have h3 : 1 + jsize v + jsizeObj ms ≤ g := by simp [jsize, jsizeObj] at hf; omega
        rw [parseMembers_round N ih ms k v g rest h1 h2 h3 hrest]

/-- The parsing effort of a value is within the fuel `parseJson` allots to
its rendering. -/
theorem jsize_le_dumps_all : ∀ N : Nat,
    (∀ j, jsize j ≤ N → jsize j ≤ 2 * (dumps j).length) ∧
    (∀ es, jsizeArr es ≤ N → jsizeArr es ≤ 2 * (dumpsArr es).length) ∧
    (∀ ms, jsizeObj ms ≤ N → jsizeObj ms ≤ 2 * (dumpsObj ms).length) := by
  intro N
  induction N with
  | zero =>
    refine ⟨fun j hj => absurd hj (by have := jsize_pos j; omega),
      fun es hes => ?_, fun ms hms => ?_⟩
    · cases es with
      | nil => simp [jsizeArr]
      | cons x xs =>
        exact absurd hes (by have := jsize_pos x; simp [jsizeArr])
    · cases ms with
      | nil => simp [jsizeObj]
      | cons m mr =>
        exact absurd hms (by have := jsize_pos m.2; simp [jsizeObj])
  | succ N ih =>
    obtain ⟨ihj, iha, iho⟩ := ih
    refine ⟨fun j hj => ?_, fun es hes => ?_, fun ms hms => ?_⟩
    · cases j with
      | null => simp [jsize, dumps]
      | bool b => cases b <;> simp [jsize, dumps]
      | num i =>
        obtain ⟨c, cs, hc, _⟩ := intToStr_head i
        show jsize (.num i) ≤ 2 * (intToStr i).length
        rw [hc]
        simp only [jsize, List.length_cons]
        omega
      | str s =>
        show jsize (.str s) ≤ 2 * (('"' :: escapeStr s ++ ['"']) : Str).length
        simp only [jsize, List.length_cons, List.length_append]
        omega
      | arr l =>
        cases l with
        | nil => simp [jsize, jsizeArr, dumps]
        | cons e es =>
          have he : jsize e ≤ 2 * (dumps e).length :=
            ihj e (by have := jsize_pos e; simp [jsize, jsizeArr] at hj ⊢; omega)
          have hes2 : jsizeArr es ≤ 2 * (dumpsArr es).length :=
            iha es (by have := jsize_pos e; simp [jsize, jsizeArr] at hj ⊢; omega)
          show jsize (.arr (e :: es)) ≤ 2 * (('[' :: dumps e ++ dumpsArr es ++ [']']) : Str).length
          simp only [jsize, jsizeArr, List.length_cons, List.length_append,
            List.length_singleton]
          omega
      | obj m =>
        cases m with
        | nil => simp [jsize, jsizeObj, dumps]
        | cons p ms =>
          obtain ⟨k, v⟩ := p
          have hv : jsize v ≤ 2 * (dumps v).length :=
            ihj v (by have := jsize_pos v; simp [jsize, jsizeObj] at hj ⊢; omega)
          have hms2 : jsizeObj ms ≤ 2 * (dumpsObj ms).length :=
            iho ms (by have := jsize_pos v; simp [jsize, jsizeObj] at hj ⊢; omega)
          show jsize (.obj ((k, v) :: ms))
              ≤ 2 * (('{' :: dumpsMember (k, v) ++ dumpsObj ms ++ ['}']) : Str).length
          have hm : (dumpsMember (k, v)).length = (escapeStr k).length + 4 + (dumps v).length := by
            show (('"' :: escapeStr k ++ ['"'] ++ (':' :: ' ' :: dumps v)) : Str).length = _
            simp [List.length_append]
            omega
          simp only [jsize, jsizeObj, List.length_cons, List.length_append,
            List.length_singleton, hm]
          omega
    · cases es with
      | nil => simp [jsizeArr]
      | cons x xs =>
        have hx : jsize x ≤ 2 * (dumps x).length :=
          ihj x (by have := jsize_pos x; simp [jsizeArr] at hes ⊢; omega)
        have hxs : jsizeArr xs ≤ 2 * (dumpsArr xs).length :=
          iha xs (by have := jsize_pos x; simp [jsizeArr] at hes ⊢; omega)
        show jsizeArr (x :: xs) ≤ 2 * ((',' :: ' ' :: dumps x ++ dumpsArr xs) : Str).length
        simp only [jsizeArr, List.length_cons, List.length_append]
        omega
    · cases ms with
      | nil => simp [jsizeObj]
      | cons m mr =>
        obtain ⟨k, v⟩ := m
        have hv : jsize v ≤ 2 * (dumps v).length :=
          ihj v (by have := jsize_pos v; simp [jsizeObj] at hms ⊢; omega)
        have hmr : jsizeObj mr ≤ 2 * (dumpsObj mr).length :=
          iho mr (by have := jsize_pos v; simp [jsizeObj] at hms ⊢; omega)
        show jsizeObj ((k, v) :: mr)
            ≤ 2 * ((',' :: ' ' :: dumpsMember (k, v) ++ dumpsObj mr) : Str).length
        have hm : (dumpsMember (k, v)).length = (escapeStr k).length + 4 + (dumps v).length := by
          show (('"' :: escapeStr k ++ ['"'] ++ (':' :: ' ' :: dumps v)) : Str).length = _
          simp [List.length_append]
          omega
        simp only [jsizeObj, List.length_cons, List.length_append, hm]
        omega

/-- Serialize-then-parse round trip at the `json.loads` level. -/
theorem parseJson_dumps (j : Json) : parseJson (dumps j) = some j := by
  have hsize : jsize j ≤ 2 * (dumps j).length :=
    (jsize_le_dumps_all (jsize j)).1 j le_rfl
  have h := parse_dumps (jsize j) j (2 * (dumps j).length + 2) [] le_rfl (by omega) rfl
  rw [List.append_nil] at h
  unfold parseJson
  rw [h]
  rfl

/-- C9: whenever the structured wrapper returns a non-null `json` and a
non-null `output`, the `output` string is the `json.dumps` serialization of
the `json` value, and re-parsing that string with `json.loads` yields a
structure equal to the `json` value. -/
theorem invoke_json_roundtrip (r : Except Str Str) (out : Str) (j : Json)
    (h : invoke_json r = ⟨some out, some j⟩) :
    out = dumps j ∧ parseJson out = some j := by
  cases r with
  | error e =>
    have h0 : invoke_json (Except.error e) = ⟨none, none⟩ := rfl
    rw [h0] at h
    have := congrArg LLMOutputM.json h
    simp at this
  | ok s =>
    have e : invoke_json (.ok s) =
        ⟨some (dumpsOpt (extract_json_strings s).head?), (extract_json_strings s).head?⟩ := rfl
    rw [e] at h
    have hj : (extract_json_strings s).head? = some j := congrArg LLMOutputM.json h
    have ho : some (dumpsOpt (extract_json_strings s).head?) = some out :=
      congrArg LLMOutputM.output h
    rw [hj] at ho
    have hout : out = dumps j := by
      have : dumpsOpt (some j) = out := by simpa using ho
      rw [← this]
      rfl
    refine ⟨hout, ?_⟩
    rw [hout]
    exact parseJson_dumps j

/-- Witness for `invoke_json_roundtrip` at a text with one embedded object. -/
theorem invoke_json_roundtrip_witness :
    "\x7b\"a\": 1\x7d".data = dumps (Json.obj [("a".data, Json.num 1)]) ∧
    parseJson ("\x7b\"a\": 1\x7d".data) = some (Json.obj [("a".data, Json.num 1)]) :=
  invoke_json_roundtrip (.ok ("ab \x7b\"a\": 1\x7d cd".data))
    ("\x7b\"a\": 1\x7d".data) (Json.obj [("a".data, Json.num 1)]) rfl

/-! ## Lemmas about placeholder substitution -/

/-- The fuel of the replace scan is irrelevant once it covers the input. -/
theorem replaceAllF_stable (p : Char) (ps rep : Str) :
    ∀ (f g : Nat) (s : Str), s.length ≤ f → s.length ≤ g →
    replaceAllF p ps rep f s = replaceAllF p ps rep g s := by
  intro f
  induction f with
  | zero =>
    intro g s hf _
    have : s = [] := List.length_eq_zero.mp (Nat.le_zero.mp hf)
    subst this
    cases g <;> rfl
  | succ f ih =>
    intro g s hf hg
    cases s with
    | nil => cases g <;> rfl
    | cons c cs =>
      cases g with
      | zero => simp at hg
      | succ g =>
        simp only [List.length_cons, Nat.succ_le_succ_iff] at hf hg
        simp only [replaceAllF]
        split_ifs with hp
        · have hlt : (cs.drop ps.length).length ≤ cs.length := by
            simp [List.length_drop]
          rw [ih g (cs.drop ps.length) (le_trans hlt hf) (le_trans hlt hg)]
        · rw [ih g cs hf hg]

/-- One replace step at a position where the pattern matches. -/
theorem replaceAll_cons_hit (p : Char) (ps rep : Str) (c : Char) (cs : Str)
    (h : (p :: ps) <+: (c :: cs)) :
    replaceAll p ps rep (c :: cs) = rep ++ replaceAll p ps rep (cs.drop ps.length) := by
  have hb : (p :: ps).isPrefixOf (c :: cs) = true := List.isPrefixOf_iff_prefix.mpr h
  show replaceAllF p ps rep (cs.length + 1) (c :: cs) = _
  simp only [replaceAllF, hb, if_true]
  have hlt : (cs.drop ps.length).length ≤ cs.length := by simp [List.length_drop]
  rw [replaceAllF_stable p ps rep cs.length (cs.drop ps.length).length _ hlt le_rfl]
  rfl

/-- One replace step at a position where the pattern does not match. -/
theorem replaceAll_cons_miss (p : Char) (ps rep : Str) (c : Char) (cs : Str)
    (h : ¬ (p :: ps) <+: (c :: cs)) :
    replaceAll p ps rep (c :: cs) = c :: replaceAll p ps rep cs := by
  have hb : (p :: ps).isPrefixOf (c :: cs) = false := by
    cases hx : (p :: ps).isPrefixOf (c :: cs) with
    | false => rfl
    | true => exact absurd ( List.isPrefixOf_iff_prefix.mp hx) h
  show replaceAllF p ps rep (cs.length + 1) (c :: cs) = _
  simp only [replaceAllF, hb, Bool.false_eq_true, if_false]
  rfl

/-- Unpacking brace-freedom of a cons cell. -/
theorem braceFree_cons (c : Char) (s : Str) :
    braceFree (c :: s) = true ↔ c ≠ '{' ∧ c ≠ '}' ∧ braceFree s = true := by
  simp [braceFree, List.all_cons, and_assoc]

/-- A replace pass for a brace-delimited pattern walks over brace-free text. -/
theorem replaceAll_text_skip (ps rep : Str) :
    ∀ (t R : Str), braceFree t = true →
    replaceAll '{' ps rep (t ++ R) = t ++ replaceAll '{' ps rep R := by
  intro t
  induction t with
  | nil => intro R _; rfl
  | cons c t2 ih =>
    intro R hbf
    obtain ⟨hc, _, ht⟩ := (braceFree_cons c t2).mp hbf
    have hnp : ¬ ('{' :: ps) <+: (c :: (t2 ++ R)) := fun hp =>
      hc ((List.cons_prefix_cons.mp hp).1.symm)
    rw [List.cons_append, replaceAll_cons_miss _ _ _ _ _ hnp, ih R ht]
    rfl

/-- Distinct brace-free keys never confuse the placeholder pattern. -/
theorem key_prefix_mismatch :
    ∀ (k k2 R : Str), braceFree k = true → braceFree k2 = true →
    k ≠ k2 → ¬ (k ++ ['}']) <+: (k2 ++ ('}' :: R)) := by
  intro k
  induction k with
  | nil =>
    intro k2 R _ hk2 hne hp
    cases k2 with
    | nil => exact hne rfl
    | cons b k3 =>
      simp only [List.nil_append, List.cons_append] at hp
      obtain ⟨_, hb, _⟩ := (braceFree_cons b k3).mp hk2
      exact hb ((List.cons_prefix_cons.mp hp).1.symm)
  | cons a k2 ih =>
    intro k3 R hk hk3 hne hp
    obtain ⟨_, ha, hk2'⟩ := (braceFree_cons a k2).mp hk
    cases k3 with
    | nil =>
      simp only [List.nil_append, List.cons_append] at hp
      exact ha (List.cons_prefix_cons.mp hp).1
    | cons b k4 =>
      simp only [List.cons_append] at hp
      obtain ⟨hab, hp2⟩ := List.cons_prefix_cons.mp hp
      subst hab
      obtain ⟨_, _, hk4⟩ := (braceFree_cons a k4).mp hk3
      exact ih k4 R hk2' hk4 (fun h => hne (by rw [h])) hp2

/-- The placeholder body is a prefix at a hole of its own key. -/
theorem key_prefix_self (k R : Str) : (k ++ ['}']) <+: (k ++ ('}' :: R)) :=
  ⟨R, by simp [List.append_assoc]⟩

/-- Rendering distributes over cons. -/
theorem renderT_cons (t : TItem) (ts : List TItem) :
    renderT (t :: ts) = t.render ++ renderT ts := by
  simp [renderT]

/-- One `str.replace` pass for `(\x7bk\x7d)` on a well-formed template acts
exactly as hole substitution for `k` at the template level. -/
theorem strReplace_renderT (k v : Str) (hk : braceFree k = true) :
    ∀ ts, wfItems ts = true →
    strReplace ('{' :: k ++ ['}']) v (renderT ts) = renderT (ts.map (substItem k v)) := by
  intro ts
  induction ts with
  | nil => intro _; rfl
  | cons t rest ih =>
    intro hwf
    cases t with
    | text s =>
      have ewf : wfItems (TItem.text s :: rest) = (braceFree s && wfItems rest) := rfl
      rw [ewf, Bool.and_eq_true] at hwf
      obtain ⟨hitem, hrest⟩ := hwf
      rw [renderT_cons, List.map_cons]
      show replaceAll '{' (k ++ ['}']) v (TItem.render (.text s) ++ renderT rest) = _
      rw [show TItem.render (.text s) = s from rfl]
      rw [replaceAll_text_skip _ _ s _ hitem]
      rw [show replaceAll '{' (k ++ ['}']) v (renderT rest)
          = strReplace ('{' :: k ++ ['}']) v (renderT rest) from rfl]
      rw [ih hrest, renderT_cons]
      rfl
    | hole k2 =>
      have ewf : wfItems (TItem.hole k2 :: rest) = (braceFree k2 && wfItems rest) := rfl
      rw [ewf, Bool.and_eq_true] at hwf
      obtain ⟨hitem, hrest⟩ := hwf
      rw [renderT_cons, List.map_cons]
      have eren : TItem.render (.hole k2) ++ renderT rest
          = '{' :: (k2 ++ ('}' :: renderT rest)) := by
        show ('{' :: k2 ++ ['}']) ++ renderT rest = _
        simp [List.cons_append, List.append_assoc]
      rw [eren]
      show replaceAll '{' (k ++ ['}']) v ('{' :: (k2 ++ ('}' :: renderT rest))) = _
      by_cases hkk : k2 = k
      · subst hkk
        have hpre : ('{' :: (k2 ++ ['}'])) <+: ('{' :: (k2 ++ ('}' :: renderT rest))) := by
          rw [List.cons_prefix_cons]
          exact ⟨rfl, key_prefix_self k2 _⟩
        rw [replaceAll_cons_hit '{' (k2 ++ ['}']) v _ _ hpre]
        have hdrop : (k2 ++ ('}' :: renderT rest)).drop (k2 ++ ['}']).length
            = renderT rest := by
          rw [show k2 ++ ('}' :: renderT rest) = (k2 ++ ['}']) ++ renderT rest from by
            simp [List.append_assoc]]
          exact List.drop_left _ _
        rw [hdrop]
        rw [show replaceAll '{' (k2 ++ ['}']) v (renderT rest)
            = strReplace ('{' :: k2 ++ ['}']) v (renderT rest) from rfl]
        rw [ih hrest, renderT_cons]
        rw [show substItem k2 v (.hole k2) = .text v from by simp [substItem]]
        rfl
      · have hnp : ¬ ('{' :: (k ++ ['}'])) <+: ('{' :: (k2 ++ ('}' :: renderT rest))) := by
          rw [List.cons_prefix_cons]
          rintro ⟨-, hp⟩
          exact key_prefix_mismatch k k2 _ hk hitem (fun h => hkk h.symm) hp
        rw [replaceAll_cons_miss _ _ _ _ _ hnp]
        rw [replaceAll_text_skip _ _ k2 _ hitem]
        rw [replaceAll_cons_miss _ _ _ '}' _ (fun hp => by
          have := (List.cons_prefix_cons.mp hp).1
          exact absurd this (by decide))]
        rw [show replaceAll '{' (k ++ ['}']) v (renderT rest)
            = strReplace ('{' :: k ++ ['}']) v (renderT rest) from rfl]
        rw [ih hrest, renderT_cons]
        rw [show substItem k v (.hole k2) = .hole k2 from by simp [substItem, hkk]]
        show '{' :: (k2 ++ ('}' :: renderT (rest.map (substItem k v))))
            = ('{' :: k2 ++ ['}']) ++ renderT (rest.map (substItem k v))
        simp [List.cons_append, List.append_assoc]

/-- Hole substitution with a brace-free value keeps a template well-formed. -/
theorem wfItems_map_subst (k v : Str) (hv : braceFree v = true) :
    ∀ ts, wfItems ts = true → wfItems (ts.map (substItem k v)) = true := by
  intro ts
  induction ts with
  | nil => intro _; rfl
  | cons t rest ih =>
    intro hwf
    cases t with
    | text s =>
      have ewf : wfItems (TItem.text s :: rest) = (braceFree s && wfItems rest) := rfl
      rw [ewf, Bool.and_eq_true] at hwf
      have e2 : wfItems ((TItem.text s :: rest).map (substItem k v))
          = (braceFree s && wfItems (rest.map (substItem k v))) := rfl
      rw [e2, Bool.and_eq_true]
      exact ⟨hwf.1, ih hwf.2⟩
    | hole k2 =>
      have ewf : wfItems (TItem.hole k2 :: rest) = (braceFree k2 && wfItems rest) := rfl
      rw [ewf, Bool.and_eq_true] at hwf
      by_cases hk2 : k2 = k
      · have e2 : wfItems ((TItem.hole k2 :: rest).map (substItem k v))
            = (braceFree v && wfItems (rest.map (substItem k v))) := by
          show wfItems (substItem k v (.hole k2) :: _) = _
          rw [show substItem k v (.hole k2) = .text v from by simp [substItem, hk2]]
          rfl
        rw [e2, Bool.and_eq_true]
        exact ⟨hv, ih hwf.2⟩
      · have e2 : wfItems ((TItem.hole k2 :: rest).map (substItem k v))
            = (braceFree k2 && wfItems (rest.map (substItem k v))) := by
          show wfItems (substItem k v (.hole k2) :: _) = _
          rw [show substItem k v (.hole k2) = .hole k2 from by simp [substItem, hk2]]
          rfl
        rw [e2, Bool.and_eq_true]
        exact ⟨hwf.1, ih hwf.2⟩

/-- All substitution passes keep a template well-formed. -/
theorem wfItems_substAll :
    ∀ (vars : List (Str × Str)) (ts : List TItem), wfItems ts = true →
    (∀ kv ∈ vars, braceFree kv.2 = true) → wfItems (substAll vars ts) = true := by
  intro vars
  induction vars with
  | nil => intro ts h _; exact h
  | cons kv vars ih =>
    intro ts h hv
    have e : substAll (kv :: vars) ts = substAll vars (ts.map (substItem kv.1 kv.2)) := rfl
    rw [e]
    exact ih _ (wfItems_map_subst kv.1 kv.2 (hv kv (List.mem_cons_self _ _)) ts h)
      (fun x hx => hv x (List.mem_cons_of_mem _ hx))

/-- `replace_placeholders` on a rendered well-formed template is exactly the
template-level substitution of all mapping entries in order. -/
theorem replace_placeholders_renderT :
    ∀ (vars : List (Str × Str)) (ts : List TItem), wfItems ts = true →
    (∀ kv ∈ vars, braceFree kv.1 = true ∧ braceFree kv.2 = true) →
    replace_placeholders (renderT ts) vars = renderT (substAll vars ts) := by
  intro vars
  induction vars with
  | nil => intro ts _ _; rfl
  | cons kv vars ih =>
    intro ts hwf hv
    obtain ⟨k, v⟩ := kv
    have h1 := hv (k, v) (List.mem_cons_self _ _)
    have e1 : replace_placeholders (renderT ts) ((k, v) :: vars)
        = replace_placeholders (strReplace ('{' :: k ++ ['}']) v (renderT ts)) vars := rfl
    rw [e1, strReplace_renderT k v h1.1 ts hwf]
    rw [ih (ts.map (substItem k v)) (wfItems_map_subst k v h1.2 ts hwf)
      (fun x hx => hv x (List.mem_cons_of_mem _ hx))]
    rfl

/-- Substituting a key eliminates all of its holes. -/
theorem hasHole_map_self (k v : Str) :
    ∀ ts : List TItem, hasHole k (ts.map (substItem k v)) = false := by
  intro ts
  induction ts with
  | nil => rfl
  | cons t rest ih =>
    cases t with
    | text s =>
      have e : hasHole k ((TItem.text s :: rest).map (substItem k v))
          = (false || hasHole k (rest.map (substItem k v))) := rfl
      rw [e, Bool.false_or, ih]
    | hole k2 =>
      by_cases hk2 : k2 = k
      · have e : hasHole k ((TItem.hole k2 :: rest).map (substItem k v))
            = (false || hasHole k (rest.map (substItem k v))) := by
          show hasHole k (substItem k v (.hole k2) :: _) = _
          rw [show substItem k v (.hole k2) = .text v from by simp [substItem, hk2]]
          rfl
        rw [e, Bool.false_or, ih]
      · have e : hasHole k ((TItem.hole k2 :: rest).map (substItem k v))
            = (decide (k2 = k) || hasHole k (rest.map (substItem k v))) := by
          show hasHole k (substItem k v (.hole k2) :: _) = _
          rw [show substItem k v (.hole k2) = .hole k2 from by simp [substItem, hk2]]
          rfl
        rw [e, ih, decide_eq_false hk2, Bool.false_or]

/-- Substitution passes never create a hole. -/
theorem hasHole_map_mono (k k2 v : Str) :
    ∀ ts, hasHole k ts = false → hasHole k (ts.map (substItem k2 v)) = false := by
  intro ts
  induction ts with
  | nil => intro _; rfl
  | cons t rest ih =>
    intro h
    cases t with
    | text s =>
      have e0 : hasHole k (TItem.text s :: rest) = (false || hasHole k rest) := rfl
      rw [e0, Bool.false_or] at h
      have e : hasHole k ((TItem.text s :: rest).map (substItem k2 v))
          = (false || hasHole k (rest.map (substItem k2 v))) := rfl
      rw [e, Bool.false_or, ih h]
    | hole k3 =>
      have e0 : hasHole k (TItem.hole k3 :: rest)
          = (decide (k3 = k) || hasHole k rest) := rfl
      rw [e0, Bool.or_eq_false_iff] at h
      by_cases hk3 : k3 = k2
      · have e : hasHole k ((TItem.hole k3 :: rest).map (substItem k2 v))
            = (false || hasHole k (rest.map (substItem k2 v))) := by
          show hasHole k (substItem k2 v (.hole k3) :: _) = _
          rw [show substItem k2 v (.hole k3) = .text v from by simp [substItem, hk3]]
          rfl
        rw [e, Bool.false_or, ih h.2]
      · have e : hasHole k ((TItem.hole k3 :: rest).map (substItem k2 v))
            = (decide (k3 = k) || hasHole k (rest.map (substItem k2 v))) := by
          show hasHole k (substItem k2 v (.hole k3) :: _) = _
          rw [show substItem k2 v (.hole k3) = .hole k3 from by simp [substItem, hk3]]
          rfl
        rw [e, ih h.2, h.1, Bool.false_or]

/-- A key with no holes stays without holes through all passes. -/
theorem hasHole_substAll_mono (k : Str) :
    ∀ (vars : List (Str × Str)) (ts : List TItem),
    hasHole k ts = false → hasHole k (substAll vars ts) = false := by
  intro vars
  induction vars with
  | nil => intro ts h; exact h
  | cons kv vars ih =>
    intro ts h
    exact ih _ (hasHole_map_mono k kv.1 kv.2 ts h)

/-- After all passes, no hole for any mapped key remains. -/
theorem hasHole_substAll_key :
    ∀ (vars : List (Str × Str)) (ts : List TItem) (k : Str),
    k ∈ vars.map Prod.fst → hasHole k (substAll vars ts) = false := by
  intro vars
  induction vars with
  | nil => intro ts k h; simp at h
  | cons kv vars ih =>
    intro ts k h
    rw [List.map_cons, List.mem_cons] at h
    have e : substAll (kv :: vars) ts = substAll vars (ts.map (substItem kv.1 kv.2)) := rfl
    rw [e]
    rcases h with h | h
    · subst h
      exact hasHole_substAll_mono _ vars _ (hasHole_map_self kv.1 kv.2 ts)
    · exact ih _ k h

/-- A hole for an unmapped key survives all passes. -/
theorem hole_mem_substAll :
    ∀ (vars : List (Str × Str)) (ts : List TItem) (k0 : Str),
    TItem.hole k0 ∈ ts → k0 ∉ vars.map Prod.fst → TItem.hole k0 ∈ substAll vars ts := by
  intro vars
  induction vars with
  | nil => intro ts k0 h _; exact h
  | cons kv vars ih =>
    intro ts k0 h hn
    rw [List.map_cons, List.mem_cons] at hn
    push_neg at hn
    have e : substAll (kv :: vars) ts = substAll vars (ts.map (substItem kv.1 kv.2)) := rfl
    rw [e]
    refine ih _ k0 ?_ hn.2
    have : substItem kv.1 kv.2 (.hole k0) ∈ ts.map (substItem kv.1 kv.2) :=
      List.mem_map_of_mem _ h
    rwa [show substItem kv.1 kv.2 (.hole k0) = .hole k0 from by
      simp [substItem]
      intro hx
      exact absurd hx hn.1] at this

/-- A brace-headed pattern is no infix of brace-free text followed by a
pattern-free rest. -/
theorem pat_not_infix_append (k : Str) :
    ∀ (t R : Str), braceFree t = true →
    ¬ ('{' :: k ++ ['}']) <:+: R → ¬ ('{' :: k ++ ['}']) <:+: (t ++ R) := by
  intro t
  induction t with
  | nil => intro R _ h; exact h
  | cons c t2 ih =>
    intro R hbf hR hinf
    obtain ⟨hc, _, ht⟩ := (braceFree_cons c t2).mp hbf
    rw [List.cons_append] at hinf
    rcases List.infix_cons_iff.mp hinf with hp | hi
    · exact hc ((List.cons_prefix_cons.mp hp).1.symm)
    · exact ih (R) ht hR hi

/-- In a rendered well-formed template with no hole named `k`, the
placeholder `(\x7bk\x7d)` does not occur. -/
theorem placeholder_absent (k : Str) (hk : braceFree k = true) :
    ∀ ts, wfItems ts = true → hasHole k ts = false →
    ¬ ('{' :: k ++ ['}']) <:+: renderT ts := by
  intro ts
  induction ts with
  | nil =>
    intro _ _ h
    obtain ⟨s, t, hst⟩ := h
    have : renderT [] = [] := rfl
    rw [this] at hst
    simp at hst
  | cons t rest ih =>
    intro hwf hh
    cases t with
    | text s =>
      have ewf : wfItems (TItem.text s :: rest) = (braceFree s && wfItems rest) := rfl
      rw [ewf, Bool.and_eq_true] at hwf
      have eh : hasHole k (TItem.text s :: rest) = (false || hasHole k rest) := rfl
      rw [eh, Bool.false_or] at hh
      rw [renderT_cons]
      exact pat_not_infix_append k s _ hwf.1 (ih hwf.2 hh)
    | hole k2 =>
      have ewf : wfItems (TItem.hole k2 :: rest) = (braceFree k2 && wfItems rest) := rfl
      rw [ewf, Bool.and_eq_true] at hwf
      have eh : hasHole k (TItem.hole k2 :: rest)
          = (decide (k2 = k) || hasHole k rest) := rfl
      rw [eh, Bool.or_eq_false_iff] at hh
      have hk2 : k2 ≠ k := of_decide_eq_false hh.1
      rw [renderT_cons]
      rw [show TItem.render (.hole k2) ++ renderT rest
          = '{' :: (k2 ++ ('}' :: renderT rest)) from by
        show ('{' :: k2 ++ ['}']) ++ renderT rest = _
        simp [List.cons_append, List.append_assoc]]
      intro hinf
      rcases List.infix_cons_iff.mp hinf with hp | hi
      · obtain ⟨-, hp2⟩ := List.cons_prefix_cons.mp hp
        exact key_prefix_mismatch k k2 _ hk hwf.1 (fun h => hk2 h.symm) hp2
      · refine pat_not_infix_append k k2 _ hwf.1 ?_ hi
        intro hinf2
        rcases List.infix_cons_iff.mp hinf2 with hp | hi2
        · have := (List.cons_prefix_cons.mp hp).1
          exact absurd this (by decide)
        · exact ih hwf.2 hh.2 hi2

/-- A rendered template does contain the placeholder of each of its holes. -/
theorem placeholder_present (k0 : Str) :
    ∀ ts, TItem.hole k0 ∈ ts → ('{' :: k0 ++ ['}']) <:+: renderT ts := by
  intro ts hmem
  have h1 : TItem.render (.hole k0) ∈ ts.map TItem.render := List.mem_map_of_mem _ hmem
  exact List.infix_of_mem_flatten h1

/-- C1 counterexample: with `variables = (a -> \x7ba\x7d)` and input
`(\x7ba\x7d)`, substitution leaves the exact placeholder `(\x7ba\x7d)` for the
key `a` in the output, although `a` is present in the mapping: Python
`str.replace` scans on after each replacement, and the substituted value can
reintroduce (or, as in `(\x7b\x7ba\x7d\x7d)`, recombine into) a placeholder. -/
theorem replace_placeholders_counterexample :
    replace_placeholders ("{a}".data) [("a".data, "{a}".data)] = "{a}".data ∧
    ('{' :: "a".data ++ ['}']) <:+:
      replace_placeholders ("{a}".data) [("a".data, "{a}".data)] := by
  refine ⟨by decide, ?_⟩
  rw [show replace_placeholders ("{a}".data) [("a".data, "{a}".data)] = "{a}".data from by
    decide]
  exact ⟨[], [], rfl⟩

/-- C1 amended: on templates whose braces all delimit placeholders (the input
splits into brace-free text and `(\x7bname\x7d)` holes with brace-free names)
and whose substitution values are brace-free, one linear left-to-right pass
per key replaces every occurrence: afterwards no placeholder of any mapped
key occurs in the output; placeholders of unmapped keys remain as literal
text; and an empty mapping leaves any input unchanged.  Without those
conditions the claim fails (see the counterexample). -/
theorem replace_placeholders_spec (ts : List TItem) (vars : List (Str × Str))
    (hts : wfItems ts = true)
    (hv : ∀ kv ∈ vars, braceFree kv.1 = true ∧ braceFree kv.2 = true) :
    (∀ kv ∈ vars, ¬ ('{' :: kv.1 ++ ['}']) <:+: replace_placeholders (renderT ts) vars) ∧
    (∀ k0, TItem.hole k0 ∈ ts → k0 ∉ vars.map Prod.fst →
      ('{' :: k0 ++ ['}']) <:+: replace_placeholders (renderT ts) vars) ∧
    (∀ s : Str, replace_placeholders s [] = s) := by
  rw [replace_placeholders_renderT vars ts hts hv]
  refine ⟨?_, ?_, fun s => rfl⟩
  · intro kv hm
    exact placeholder_absent kv.1 (hv kv hm).1 (substAll vars ts)
      (wfItems_substAll vars ts hts (fun x hx => (hv x hx).2))
      (hasHole_substAll_key vars ts kv.1 (List.mem_map_of_mem Prod.fst hm))
  · intro k0 hmem hnot
    exact placeholder_present k0 (substAll vars ts) (hole_mem_substAll vars ts k0 hmem hnot)

/-- Witness for `replace_placeholders_spec`: in the template
`x (\x7ba\x7d) y (\x7bb\x7d)` with mapping `(a -> 1)`, the placeholder for
`a` is gone, the placeholder for the unmapped `b` remains, and the empty
mapping is the identity. -/
theorem replace_placeholders_spec_witness :
    (¬ ('{' :: "a".data ++ ['}']) <:+:
      replace_placeholders
        (renderT [TItem.text ("x ".data), TItem.hole ("a".data),
          TItem.text (" y ".data), TItem.hole ("b".data)])
        [("a".data, "1".data)]) ∧
    (('{' :: "b".data ++ ['}']) <:+:
      replace_placeholders
        (renderT [TItem.text ("x ".data), TItem.hole ("a".data),
          TItem.text (" y ".data), TItem.hole ("b".data)])
        [("a".data, "1".data)]) ∧
    replace_placeholders ("q".data) [] = "q".data := by
  have H := replace_placeholders_spec
    [TItem.text ("x ".data), TItem.hole ("a".data),
      TItem.text (" y ".data), TItem.hole ("b".data)]
    [("a".data, "1".data)] (by decide)
    (by intro kv hm
        rw [List.mem_singleton] at hm
        subst hm
        exact ⟨by decide, by decide⟩)
  exact ⟨H.1 ("a".data, "1".data) (List.mem_singleton.mpr rfl),
    H.2.1 ("b".data) (by decide) (by decide),
    H.2.2 ("q".data)⟩
